import Mathlib

/-!
Verification of the cxxapi HTTP framework core against its specification.

The C++ sources are shallowly embedded: byte strings become `List Char`,
the boost string algorithms used by the code are re-defined at character
level, stateful routines become pure functions (exceptions become
`Except`), and every definition is kept executable so that concrete
witnesses evaluate by `decide` / `rfl`.
-/

namespace Cxxapi

/-- Byte strings are modelled as lists of characters; the source operates on
    std::string / std::string_view over single-byte characters. -/
abbrev Str := List Char

/-- Equality of Except values is decidable when both component types have
    decidable equality (used to evaluate fallible functions with decide). -/
instance {e a : Type} [DecidableEq e] [DecidableEq a] :
    DecidableEq (Except e a) := fun x y =>
  match x, y with
  | .error e1, .error e2 =>
    if h : e1 = e2 then .isTrue (by rw [h])
    else .isFalse (fun hc => by cases hc; exact h rfl)
  | .error _, .ok _ => .isFalse (fun hc => by cases hc)
  | .ok _, .error _ => .isFalse (fun hc => by cases hc)
  | .ok a1, .ok a2 =>
    if h : a1 = a2 then .isTrue (by rw [h])
    else .isFalse (fun hc => by cases hc; exact h rfl)

/-- ASCII lower-casing of one character, as default-locale std::tolower and
    the boost case-insensitive predicates behave on ASCII input. -/
def lowerChar (c : Char) : Char :=
  if 'A' ≤ c ∧ c ≤ 'Z' then Char.ofNat (c.toNat + 32) else c

/-- std::isspace in the default locale. -/
def isSpaceB (c : Char) : Bool :=
  c = ' ' || c = '\t' || c = '\n' || c = '\x0b' || c = '\x0c' || c = '\r'

/-- boost::iequals — equal length and pointwise ASCII case-insensitive
    equality of characters. -/
def iequals : Str → Str → Bool
  | [], [] => true
  | a :: as, b :: bs => (lowerChar a == lowerChar b) && iequals as bs
  | _, _ => false

/-- boost::algorithm::ilexicographical_compare — strict lexicographic
    comparison of the case-folded strings; this is the comparator of
    http::internal::ci_less_t (internal.hxx:16-26). -/
def ciLess : Str → Str → Bool
  | [], [] => false
  | [], _ :: _ => true
  | _ :: _, [] => false
  | a :: as, b :: bs =>
    if lowerChar a < lowerChar b then true
    else if lowerChar b < lowerChar a then false
    else ciLess as bs

/-- Key equivalence induced by the std::map comparator ci_less_t:
    neither key is strictly below the other. -/
def ciEquiv (a b : Str) : Bool := !ciLess a b && !ciLess b a

/-- Search step for `findFrom`: try indices i, i+1, … while fuel lasts. -/
def findFromAux (hay pat : Str) : Nat → Nat → Option Nat
  | 0, _ => none
  | fuel + 1, i =>
    if pat.isPrefixOf (hay.drop i) then some i
    else findFromAux hay pat fuel (i + 1)

/-- std::string_view::find(pat, start): the smallest index i ≥ start at which
    pat occurs in hay (none when start is past the end or pat never occurs). -/
def findFrom (hay pat : Str) (start : Nat) : Option Nat :=
  findFromAux hay pat (hay.length + 1 - start) start

/-- Whether pat occurs in hay at index i
    (std::string_view::compare(i, pat.size, pat) == 0). -/
def substrAt (hay pat : Str) (i : Nat) : Bool := pat.isPrefixOf (hay.drop i)

/-- Whether pat occurs anywhere in hay. -/
def occursIn (hay pat : Str) : Bool := (findFrom hay pat 0).isSome

/-! ### Server worker-pool sizing (server.cxx, c_server::start) -/

/-- The value of an int32 after the usual arithmetic conversion to
    unsigned int (two's-complement wrap, explicit mod 2^32). -/
def toUnsigned32 (w : Int) : Nat := (w % 4294967296).toNat

/-- c_server::start (server.cxx:60): the effective worker count. The
    source compares workers_count <= 0u, so the int32 count converts to
    unsigned: hardware concurrency is used only when the configured count
    is exactly 0, and a negative count wraps to a huge unsigned value that
    becomes the worker count (the ternary's common type is unsigned). -/
def effectiveWorkers (workersCount : Int) (hardwareConcurrency : Nat) : Nat :=
  if toUnsigned32 workersCount ≤ 0 then hardwareConcurrency
  else toUnsigned32 workersCount

/-- c_server::start (server.cxx:68-74): the number of acceptor coroutines
    spawned — workers / 4 in unsigned arithmetic, bumped to 1 when that
    quotient is 0 and workers > 1. -/
def acceptorsCount (workers : Nat) : Nat :=
  let a := workers / 4
  if a = 0 ∧ workers > 1 then 1 else a

/-- c_server::start (server.cxx:69-74): the number of regular workers,
    updated together with the acceptor count. -/
def regularWorkers (workers : Nat) : Nat :=
  let a := workers / 4
  if a = 0 ∧ workers > 1 then workers - 1 else workers - a

/-- The acceptor-count formula asserted by the specification (sec. 4.4), for
    comparison with `acceptorsCount`: 1 for workers ≤ 4, max(2, workers/6)
    for workers ≤ 16, max(3, workers/8) above, clamped to at least 1. -/
def specAcceptors (workers : Nat) : Nat :=
  if workers ≤ 4 then 1
  else if workers ≤ 16 then max 2 (workers / 6)
  else max 3 (workers / 8)

/-! ### Request headers and keep_alive (request.hxx) -/

/-- http::headers_t — std::map keyed case-insensitively via ci_less_t,
    modelled as an association list whose find returns the first entry with a
    comparator-equivalent key. -/
abbrev HeaderMap := List (Str × Str)

/-- std::map::find on the case-insensitive header map. -/
def headerFind (m : HeaderMap) (k : Str) : Option Str :=
  match m with
  | [] => none
  | (k0, v) :: rest => if ciEquiv k0 k then some v else headerFind rest k

/-- request_t::keep_alive (request.hxx:38-45): true when the Connection
    header is absent, otherwise boost::iequals of its value with
    "keep-alive". -/
def keep_alive (headers : HeaderMap) : Bool :=
  match headerFind headers ("connection".toList) with
  | none => true
  | some v => iequals v ("keep-alive".toList)

/-- ASCII case-insensitive string equality as a relation — the
    specification's notion of comparison, stated independently of the boost
    functions embedded above. -/
def AsciiCaseEq (a b : Str) : Prop :=
  List.Forall₂ (fun x y => lowerChar x = lowerChar y) a b

/-! ### Boundary extraction (utils.hxx, _extract_boundary) -/

/-- The double-quote character (written by code point to keep string
    scanning simple). -/
def dquote : Char := Char.ofNat 34

/-- The single-quote character. -/
def squote : Char := Char.ofNat 39

/-- boost::trim_left in the default locale: drop leading whitespace. -/
def trimLeft : Str → Str
  | [] => []
  | c :: r => if isSpaceB c then trimLeft r else c :: r

/-- boost::trim_right: drop trailing whitespace. -/
def trimRight (s : Str) : Str := (trimLeft s.reverse).reverse

/-- boost::trim: drop whitespace on both sides. -/
def trimStr (s : Str) : Str := trimRight (trimLeft s)

/-- boost::split(parts, ct, boost::is_any_of(";")): split at every
    semicolon, keeping empty tokens. -/
def splitOnSemicolon : Str → List Str
  | [] => [[]]
  | c :: r =>
    if c = ';' then [] :: splitOnSemicolon r
    else
      match splitOnSemicolon r with
      | [] => [[c]]
      | t :: ts => (c :: t) :: ts

/-- boost::istarts_with: ASCII case-insensitive prefix test. -/
def istartsWith (s pat : Str) : Bool := iequals (s.take pat.length) pat

/-- _extract_boundary (utils.hxx:109-112): strip one matched pair of
    surrounding single or double quotes. -/
def stripQuotes (v : Str) : Str :=
  if v.length ≥ 2 &&
      ((v.headD ' ' == dquote && v.getLastD ' ' == dquote) ||
       (v.headD ' ' == squote && v.getLastD ' ' == squote)) then
    (v.drop 1).take (v.length - 2)
  else v

/-- _extract_boundary (utils.hxx:101-116): scan the semicolon-separated
    parts in order; on the first part whose trimmed form case-insensitively
    starts with "boundary=", return its trimmed, quote-stripped value. -/
def extractLoop : List Str → Str
  | [] => []
  | p :: ps =>
    let pt := trimStr p
    if istartsWith pt ("boundary=".toList) then
      stripQuotes (trimStr (pt.drop (("boundary=".toList).length)))
    else extractLoop ps

/-- _extract_boundary (utils.hxx:94-119). -/
def extract_boundary (ct : Str) : Str := extractLoop (splitOnSemicolon ct)

/-! ### Response cookies (cookie.hxx, response.hxx set_cookie) -/

/-- http::cookie_t (cookie.hxx:13-37); source defaults are path "/", empty
    domain, flags false, max_age 24 hours, empty same_site. -/
structure CookieT where
  name : Str
  value : Str
  path : Str := "/".toList
  domain : Str := []
  secure : Bool := false
  httpOnly : Bool := false
  maxAge : Int := 86400
  sameSite : Str := []

/-- Plain prefix test, std::string::rfind(pat, 0) == 0. -/
def startsWithB (s pat : Str) : Bool := pat.isPrefixOf s

/-- The attribute pieces appended by response_t::set_cookie
    (response.hxx:73-104) in source order; their concatenation is the
    serialized Set-Cookie line. expiresStr stands for the wall-clock
    rendering boost::posix_time::to_simple_string(now + max_age), which the
    embedding takes as a parameter because it reads the current time. -/
def cookieAttrs (c : CookieT) (expiresStr : Str) : List Str :=
  [c.name ++ ("=".toList) ++ c.value] ++
  (if c.domain ≠ [] then [("; Domain=".toList) ++ c.domain] else []) ++
  (if c.path ≠ [] then [("; Path=".toList) ++ c.path] else []) ++
  (if c.maxAge > 0 then
      [("; Max-Age=".toList) ++ (toString c.maxAge).toList,
       ("; Expires=".toList) ++ expiresStr]
    else []) ++
  (if c.secure then [("; Secure".toList)] else []) ++
  (if c.httpOnly then [("; HttpOnly".toList)] else []) ++
  (if c.sameSite ≠ [] then [("; SameSite=".toList) ++ c.sameSite] else [])

/-- response_t::set_cookie (response.hxx:61-107): validate the __Secure-
    and __Host- name prefixes, then append the serialized line to the
    response's cookie list; a failed validation throws std::invalid_argument
    before the line is built, leaving the list unchanged. -/
def set_cookie (cookies : List Str) (c : CookieT) (expiresStr : Str) :
    Except String (List Str) :=
  if startsWithB c.name ("__Secure-".toList) ∧ ¬ c.secure then
    .error "__Secure- cookies require Secure flag"
  else if startsWithB c.name ("__Host-".toList) ∧
      ¬ (c.secure ∧ c.domain = [] ∧ c.path = ("/".toList)) then
    .error "__Host- cookies require Secure, no Domain, Path=/"
  else
    .ok (cookies ++ [(cookieAttrs c expiresStr).flatten])

/-- The C6 counterexample cookie: a valid __Host- cookie whose value smuggles
    the text of a Domain attribute. -/
def cexHostCookie : CookieT :=
  { name := "__Host-a".toList, value := "v; Domain=e".toList,
    path := "/".toList, domain := [], secure := true, httpOnly := false,
    maxAge := 0, sameSite := [] }

/-- A well-formed __Host- cookie used as a witness. -/
def okHostCookie : CookieT :=
  { name := "__Host-sid".toList, value := "v".toList,
    path := "/".toList, domain := [], secure := true, httpOnly := true,
    maxAge := 60, sameSite := "Lax".toList }

/-! ### Multipart parsing (multipart.hxx, multipart_t::parse_async) -/

/-- boost::ifind_first used as a truth test: whether pat occurs in hay under
    ASCII case-insensitive comparison. -/
def ifindB (hay pat : Str) : Bool :=
  occursIn (hay.map lowerChar) (pat.map lowerChar)

/-- multipart_t::_extract_between (multipart.hxx:647-666). -/
def extract_between (s st en : Str) : Str :=
  match findFrom s st 0 with
  | none => []
  | some first0 =>
    let first := first0 + st.length
    match findFrom s en first with
    | none => []
    | some last => (s.drop first).take (last - first)

/-- Search step of multipart_t::_split. -/
def splitStrAux (s delim : Str) : Nat → Nat → List Str
  | 0, start => [s.drop start]
  | fuel + 1, start =>
    match findFrom s delim start with
    | none => [s.drop start]
    | some e =>
      ((s.drop start).take (e - start)) ::
        splitStrAux s delim fuel (e + delim.length)

/-- multipart_t::_split (multipart.hxx:617-638): delimiter-separated pieces
    with the final remainder always pushed; the empty string yields no
    pieces. -/
def splitStr (s delim : Str) : List Str :=
  if s = [] then [] else splitStrAux s delim (s.length + 1) 0

/-- Content-Type value extraction in parse_async (multipart.hxx:82):
    line.substr(line.find(":") + 2u) on a std::string_view. substr throws
    std::out_of_range when its start position exceeds the line length —
    reachable when the colon is the line's last character; a line without a
    colon wraps npos + 2u to 1 in size_t arithmetic. -/
def ctypeOfLine (line : Str) : Except String Str :=
  match findFrom line (":".toList) 0 with
  | some i =>
    if i + 2 ≤ line.length then .ok (line.drop (i + 2))
    else .error "basic_string_view::substr out of range"
  | none =>
    if 1 ≤ line.length then .ok (line.drop 1)
    else .error "basic_string_view::substr out of range"

/-- One header line of the scanning loop (multipart.hxx:75-83). -/
def scanHeaderLine (acc : Str × Str × Str) (line : Str) :
    Except String (Str × Str × Str) :=
  if ifindB line ("content-disposition".toList) then
    .ok (extract_between line ("name=\"".toList) ("\"".toList),
      extract_between line ("filename=\"".toList) ("\"".toList),
      acc.2.2)
  else if ifindB line ("content-type".toList) then
    match ctypeOfLine line with
    | .ok c => .ok (acc.1, acc.2.1, c)
    | .error e => .error e
  else .ok acc

/-- The header-scanning loop of parse_async (multipart.hxx:73-83): later
    matching lines overwrite earlier values; a Content-Disposition line
    sets name and filename together; a malformed Content-Type line throws.
    Returns (name, filename, ctype). -/
def scanPartHeaders (headers : Str) : Except String (Str × Str × Str) :=
  (splitStr headers ("\r\n".toList)).foldlM scanHeaderLine ([], [], [])

/-- http::file_t as observable from the in-memory parser: display name,
    content type, content bytes (copied in memory, or written to the
    temporary file for the disk branch), and the storage flag. -/
structure MFile where
  filename : Str
  ctype : Str
  content : Str
  inMemory : Bool
deriving DecidableEq, Repr

/-- http::files_t — a boost::unordered_map whose emplace inserts only when
    the key is absent (first occurrence wins); modelled as an association
    list with exact string keys. -/
abbrev Files := List (Str × MFile)

/-- boost::unordered_map::emplace. -/
def filesEmplace (m : Files) (k : Str) (v : MFile) : Files :=
  if m.any (fun p => p.1 == k) then m else m ++ [(k, v)]

/-- The scanning loop of multipart_t::parse_async (multipart.hxx:52-133).
    Returns the accumulated file map together with the
    saw_closing_boundary flag. The fuel argument only bounds the recursion;
    body.length + 1 steps always suffice because the scan position advances
    strictly, and exhausted fuel reports the flag as false. -/
def parseLoopMem (body db : Str) (maxFile maxFiles : Nat) :
    Nat → Nat → Nat → Files → Except String (Files × Bool)
  | 0, _, _, ret => .ok (ret, false)
  | fuel + 1, pos, inMemTotal, ret =>
    match findFrom body db pos with
    | none => .ok (ret, false)
    | some i =>
      let pos1 := i + db.length
      if substrAt body ("--".toList) pos1 then .ok (ret, true)
      else
        let pos2 := if substrAt body ("\r\n".toList) pos1 then pos1 + 2 else pos1
        match findFrom body ("\r\n\r\n".toList) pos2 with
        | none => .ok (ret, false)
        | some headerEnd =>
          let headers := (body.drop pos2).take (headerEnd - pos2)
          let pos3 := headerEnd + 4
          match scanPartHeaders headers with
          | .error e => .error e
          | .ok nfc =>
            match findFrom body ("\r\n".toList) pos3 with
            | none => .ok (ret, false)
            | some partEnd =>
              let contentLen := partEnd - pos3
              let content := (body.drop pos3).take contentLen
              if nfc.1 ≠ [] ∧ nfc.2.1 ≠ [] then
                if contentLen ≤ maxFile ∧ inMemTotal + contentLen ≤ maxFiles then
                  parseLoopMem body db maxFile maxFiles fuel (partEnd + 2)
                    (inMemTotal + contentLen)
                    (filesEmplace ret nfc.1 ⟨nfc.2.1, nfc.2.2, content, true⟩)
                else
                  parseLoopMem body db maxFile maxFiles fuel (partEnd + 2)
                    inMemTotal
                    (filesEmplace ret nfc.1 ⟨nfc.2.1, nfc.2.2, content, false⟩)
              else
                parseLoopMem body db maxFile maxFiles fuel (partEnd + 2)
                  inMemTotal ret

/-- multipart_t::parse_async (multipart.hxx:24-142) with the scheduler
    yields and the disk I/O of the original erased: temp-file writes cannot
    fail in the model and the returned map is the observable result. When
    saw_closing_boundary is false at loop exit the map is cleared; the
    substr throw in header scanning propagates out as an error. -/
def parse_async (body boundary : Str) (maxFile maxFiles : Nat) :
    Except String Files :=
  let db := ("--".toList) ++ boundary
  if (findFrom body db 0).isNone then .ok []
  else
    match parseLoopMem body db maxFile maxFiles (body.length + 1) 0 0 [] with
    | .error e => .error e
    | .ok r => if r.2 then .ok r.1 else .ok []

/-- The boundary validation of multipart_t::parse_from_file_async
    (multipart.hxx:178-183), executed right after the source file is opened
    and before any parsing; both failures throw processing_exception_t, so
    no file is produced for such a boundary. -/
def parse_from_file_boundary_check (boundary : Str) : Except String Unit :=
  if boundary = [] then .error "Empty boundary is not allowed"
  else if boundary ≠ [] ∧ isSpaceB (boundary.getLastD ' ') then
    .error "Boundary can't end with whitespace"
  else .ok ()

/-- The C4 failing input: one part whose content "ab\r\ncd" itself contains
    a CRLF before the next boundary delimiter. -/
def c4Body : Str :=
  String.toList
    "--b\r\nContent-Disposition: form-data; name=\"n\"; filename=\"f.txt\"\r\nContent-Type: text/plain\r\n\r\nab\r\ncd\r\n--b--"

/-- The C7 counterexample input: a well-formed body for the
    trailing-whitespace boundary "b ". -/
def c7Body : Str :=
  String.toList
    "--b \r\nContent-Disposition: form-data; name=\"n\"; filename=\"f\"\r\n\r\nhi\r\n--b --"

/-- A C2 witness input: one well-formed part but no closing delimiter
    "--b--" anywhere. -/
def c2Body : Str :=
  String.toList
    "--b\r\nContent-Disposition: form-data; name=\"n\"; filename=\"f\"\r\n\r\nhi\r\nmore"

/-- The C2 counterexample input: no closing delimiter anywhere, but the
    part's Content-Type header line ends with its colon, so the substr in
    the header scan throws. -/
def c2ThrowBody : Str := String.toList "--b\r\nContent-Type:\r\n\r\nx"

/-! ### Route trie (route/internal/internal.hxx, internal.cxx) -/

/-- The opening brace character (written by code point to keep string
    scanning simple). -/
def obrace : Char := Char.ofNat 123

/-- The closing brace character. -/
def cbrace : Char := Char.ofNat 125

/-- http::e_method (http.hxx:113-124). -/
inductive Method : Type where
  | get
  | head
  | post
  | put
  | deleteM
  | connect
  | options
  | traceM
  | patch
  | unknown
deriving DecidableEq, Repr

/-- route::internal::trie_node_t (internal.hxx:14-101): handler values per
    method, literal children, and one optional dynamic child together with
    its parameter name. -/
inductive Trie (α : Type) : Type where
  | node (values : List (Method × α)) (children : List (Str × Trie α))
      (param : Str) (dyn : Option (Trie α))

/-- The m_values field. -/
def Trie.values {α : Type} : Trie α → List (Method × α)
  | .node v _ _ _ => v

/-- The m_child field. -/
def Trie.children {α : Type} : Trie α → List (Str × Trie α)
  | .node _ c _ _ => c

/-- The m_param field. -/
def Trie.param {α : Type} : Trie α → Str
  | .node _ _ p _ => p

/-- The m_dynamic_child field. -/
def Trie.dyn {α : Type} : Trie α → Option (Trie α)
  | .node _ _ _ d => d

/-- A freshly constructed trie node. -/
def emptyTrie {α : Type} : Trie α := .node [] [] [] none

/-- boost::unordered_map<e_method, handler>::find. -/
def valFind {α : Type} (vs : List (Method × α)) (m : Method) : Option α :=
  match vs with
  | [] => none
  | (m0, h) :: rest => if m0 = m then some h else valFind rest m

/-- boost::unordered_map<string, node>::find on the literal children. -/
def childFind {α : Type} (cs : List (Str × Trie α)) (s : Str) :
    Option (Trie α) :=
  match cs with
  | [] => none
  | (k, t) :: rest => if k = s then some t else childFind rest s

/-- operator[] assignment on the literal-children map: update the existing
    entry or append a new one. -/
def childSet {α : Type} (cs : List (Str × Trie α)) (s : Str) (t : Trie α) :
    List (Str × Trie α) :=
  match cs with
  | [] => [(s, t)]
  | (k, t0) :: rest =>
    if k = s then (k, t) :: rest else (k, t0) :: childSet rest s t

/-- trie_node_t::is_dynamic_segment (internal.hxx:60-62). -/
def isDynamicSegment (s : Str) : Bool :=
  decide (s.length ≥ 2) && (s.headD ' ' == obrace) && (s.getLastD ' ' == cbrace)

/-- trie_node_t::is_broken_segment (internal.hxx:69-71). -/
def isBrokenSegment (s : Str) : Bool :=
  ((s.headD ' ' == obrace) && !(s.getLastD ' ' == cbrace)) ||
  (!(s.headD ' ' == obrace) && (s.getLastD ' ' == cbrace))

/-- trie_node_t::extract_param_name (internal.hxx:78-80). -/
def extract_param_name (s : Str) : Str :=
  if s.length > 2 then (s.drop 1).take (s.length - 2) else []

/-- trie_node_t::normalize_path (internal.hxx:48-53). -/
def normalize_path (p : Str) : Str :=
  if p = [] then "/".toList
  else if p.length > 1 ∧ p.getLastD ' ' = '/' then p.take (p.length - 1)
  else p

/-- All pieces of a string between '/' separators, empty pieces included
    (the successive substr pieces taken by split_path's loop, together with
    the final remainder). -/
def splitAllSlash : Str → List Str
  | [] => [[]]
  | c :: r =>
    if c = '/' then [] :: splitAllSlash r
    else
      match splitAllSlash r with
      | [] => [[c]]
      | t :: ts => (c :: t) :: ts

/-- The splitting loop of trie_node_t::split_path (internal.cxx:125-137):
    every piece between slashes is emitted, except that a trailing empty
    piece (path ending in '/') is not pushed, because the final push is
    guarded by start < path.size(). -/
def splitSegs (s : Str) : List Str :=
  let ps := splitAllSlash s
  if ps.getLastD ['/'] = [] then ps.dropLast else ps

/-- trie_node_t::split_path (internal.cxx:116-139): "/" has no segments;
    otherwise the leading character is skipped and the rest is split on
    '/'. -/
def split_path (p : Str) : List Str :=
  if p = "/".toList then [] else splitSegs (p.drop 1)

/-- trie_node_t::insert (internal.cxx:4-66), walking a segment list;
    exceptions become errors. On the dynamic branch the parameter name is
    stored only when the dynamic child is created. -/
def insertSegs {α : Type} : Trie α → List Str → Method → α →
    Except String (Trie α)
  | .node vs cs pr dyn, [], m, h =>
    if (valFind vs m).isSome then .error "Route already exists for method"
    else .ok (.node (vs ++ [(m, h)]) cs pr dyn)
  | .node vs cs pr dyn, seg :: rest, m, h =>
    if seg = [] then .error "Empty segment in path"
    else if isBrokenSegment seg then .error "Malformed dynamic segment"
    else if isDynamicSegment seg then
      let pname := extract_param_name seg
      if pname = [] then .error "Dynamic segment without name"
      else
        match dyn with
        | none =>
          match insertSegs emptyTrie rest m h with
          | .error e => .error e
          | .ok child => .ok (.node vs cs pname (some child))
        | some d =>
          match insertSegs d rest m h with
          | .error e => .error e
          | .ok child => .ok (.node vs cs pr (some child))
    else
      match insertSegs ((childFind cs seg).getD emptyTrie) rest m h with
      | .error e => .error e
      | .ok c => .ok (.node vs (childSet cs seg c) pr dyn)

/-- std::map<std::string, std::string, ci_less_t>::emplace on the params
    map: insert only when no comparator-equivalent key is present. -/
def paramsEmplace (ps : List (Str × Str)) (k v : Str) : List (Str × Str) :=
  if ps.any (fun p => ciEquiv p.1 k) then ps else ps ++ [(k, v)]

/-- std::map::find on the params map. -/
def paramsLookup (ps : List (Str × Str)) (k : Str) : Option Str :=
  match ps with
  | [] => none
  | (k0, v) :: rest => if ciEquiv k0 k then some v else paramsLookup rest k

/-- trie_node_t::find (internal.cxx:68-114), walking a segment list: prefer
    a literal child, else take the dynamic child and bind its stored
    parameter name; at the end look the method up. -/
def findSegs {α : Type} : Trie α → List Str → Method → List (Str × Str) →
    Except String (Option (α × List (Str × Str)))
  | t, [], m, ps =>
    match valFind t.values m with
    | some h => .ok (some (h, ps))
    | none => .ok none
  | t, seg :: rest, m, ps =>
    if seg = [] then .error "Empty segment detected."
    else
      match childFind t.children seg with
      | some c => findSegs c rest m ps
      | none =>
        match t.dyn with
        | some d => findSegs d rest m (paramsEmplace ps t.param seg)
        | none => .ok none

/-- trie_node_t::insert on a path string. -/
def insertTrie {α : Type} (t : Trie α) (m : Method) (path : Str) (h : α) :
    Except String (Trie α) :=
  insertSegs t (split_path (normalize_path path)) m h

/-- trie_node_t::find on a path string. -/
def findTrie {α : Type} (t : Trie α) (m : Method) (path : Str) :
    Except String (Option (α × List (Str × Str))) :=
  findSegs t (split_path (normalize_path path)) m []

/-- Segments joined with '/' between them. -/
def joinSegs : List Str → Str
  | [] => []
  | [s] => s
  | s :: s2 :: rest => s ++ '/' :: joinSegs (s2 :: rest)

/-- Build the path string "/s1/s2/…" of a segment list. -/
def joinPath (segs : List Str) : Str :=
  '/' :: joinSegs segs

/-- The specification's substitution relation of C1: a dynamic pattern
    segment is replaced by an arbitrary non-empty segment without '/'; a
    literal segment is kept. -/
def SubstOk (s u : Str) : Prop :=
  (isDynamicSegment s = true → u ≠ [] ∧ ('/' : Char) ∉ u) ∧
  (isDynamicSegment s = false → u = s)

/-- The (parameter name, substituted text) bindings contributed by the
    dynamic positions of zipped (pattern segment, request segment) pairs. -/
def dynBindings (pairs : List (Str × Str)) : List (Str × Str) :=
  pairs.filterMap
    (fun su =>
      if isDynamicSegment su.1 = true then
        some (extract_param_name su.1, su.2)
      else none)

/-- The params accumulator realized by find along a matched path. -/
def paramsAcc (ps : List (Str × Str)) (pairs : List (Str × Str)) :
    List (Str × Str) :=
  pairs.foldl
    (fun acc su =>
      if isDynamicSegment su.1 = true then
        paramsEmplace acc (extract_param_name su.1) su.2
      else acc)
    ps

/-- Folding emplace over a list of bindings. -/
def foldEmplace (ps : List (Str × Str)) (bs : List (Str × Str)) :
    List (Str × Str) :=
  bs.foldl (fun a kv => paramsEmplace a kv.1 kv.2) ps

/-- The trie produced by one successful insertion into an empty trie: a
    single spine of nodes. -/
def spine {α : Type} (segs : List Str) (m : Method) (h : α) : Trie α :=
  match segs with
  | [] => .node [(m, h)] [] [] none
  | s :: rest =>
    if isDynamicSegment s then
      .node [] [] (extract_param_name s) (some (spine rest m h))
    else .node [] [(s, spine rest m h)] [] none

/-- A dynamic pattern segment with the given parameter name. -/
def dynSeg (n : Str) : Str := obrace :: (n ++ [cbrace])

/-- The trie after inserting two routes that share one dynamic position at
    the end of a common literal prefix: the parameter name of the first
    insertion is the one stored. -/
def twoSpine {α : Type} (pre : List Str) (x : Str)
    (m1 m2 : Method) (h1 h2 : α) : Trie α :=
  match pre with
  | [] => .node [] [] x (some (.node [(m1, h1), (m2, h2)] [] [] none))
  | s :: rest => .node [] [(s, twoSpine rest x m1 m2 h1 h2)] [] none

/-! ### Uploaded-file ownership (file.hxx, file_t) -/

/-- The ownership-relevant state of one http::file_t object: the storage
    flag and the temporary path (file.hxx:155-170; name, content type and
    data do not influence file removal). -/
structure FileObj where
  inMemory : Bool
  tempPath : Str
deriving DecidableEq, Repr

/-- file_t::~file_t (file.hxx:42-48): the destructor removes m_temp_path
    exactly when the object is disk-backed with a nonempty path. -/
def destructorRemoves (f : FileObj) : Option Str :=
  if ¬ f.inMemory ∧ f.tempPath ≠ [] then some f.tempPath else none

/-- The moved-from state left behind by the move constructor and the move
    assignment (file.hxx:72-73 and 97-98): marked in-memory with a cleared
    temp path. -/
def movedFromObj : FileObj := { inMemory := true, tempPath := [] }

/-- The heap of live file_t objects, identified by handles. -/
abbrev FileHeap := List (Nat × FileObj)

/-- Look a live object up. -/
def heapFind (hp : FileHeap) (i : Nat) : Option FileObj :=
  match hp with
  | [] => none
  | (k, f) :: rest => if k = i then some f else heapFind rest i

/-- Overwrite a live object's state. -/
def heapSet (hp : FileHeap) (i : Nat) (g : FileObj) : FileHeap :=
  match hp with
  | [] => []
  | (k, f) :: rest => if k = i then (k, g) :: rest else (k, f) :: heapSet rest i g

/-- Drop a destroyed object. -/
def heapErase (hp : FileHeap) (i : Nat) : FileHeap :=
  match hp with
  | [] => []
  | (k, f) :: rest => if k = i then rest else (k, f) :: heapErase rest i

/-- The object-lifetime operations of file_t that touch ownership. -/
inductive FOp : Type where
  | mkMem (i : Nat)
  | mkDisk (i : Nat) (p : Str)
  | moveCtor (dst src : Nat)
  | moveAssign (dst src : Nat)
  | destroy (i : Nat)
deriving DecidableEq, Repr

/-- One operation on the heap of file_t objects: the new heap plus the
    paths the operation removes from disk; none when the operation is
    invalid (re-using a live handle as a new object, touching a dead one).
    Modelled on file.hxx — in-memory and disk constructors (25-37),
    destructor (42-48), move constructor (66-74), move assignment (81-102,
    which first removes the target's old temp file and guards against
    self-assignment). -/
def fstep (hp : FileHeap) : FOp → Option (FileHeap × List Str)
  | .mkMem i =>
    if (heapFind hp i).isSome then none
    else some (hp ++ [(i, { inMemory := true, tempPath := [] })], [])
  | .mkDisk i p =>
    if (heapFind hp i).isSome then none
    else some (hp ++ [(i, { inMemory := false, tempPath := p })], [])
  | .moveCtor dst src =>
    if (heapFind hp dst).isSome then none
    else
      match heapFind hp src with
      | none => none
      | some f => some (heapSet hp src movedFromObj ++ [(dst, f)], [])
  | .moveAssign dst src =>
    if dst = src then
      if (heapFind hp dst).isSome then some (hp, []) else none
    else
      match heapFind hp dst, heapFind hp src with
      | some fd, some fs =>
        some (heapSet (heapSet hp dst fs) src movedFromObj,
          (destructorRemoves fd).toList)
      | _, _ => none
  | .destroy i =>
    match heapFind hp i with
    | none => none
    | some f => some (heapErase hp i, (destructorRemoves f).toList)

/-- Run a trace of operations, accumulating removal events. -/
def frun (hp : FileHeap) (evs : List Str) :
    List FOp → Option (FileHeap × List Str)
  | [] => some (hp, evs)
  | op :: rest =>
    match fstep hp op with
    | none => none
    | some pr => frun pr.1 (evs ++ pr.2) rest

/-- The disk paths a trace hands to disk-backed constructors. -/
def diskPaths : List FOp → List Str
  | [] => []
  | .mkDisk _ p :: rest => p :: diskPaths rest
  | _ :: rest => diskPaths rest

/-- The number of disk-backed constructions for path p that one operation
    performs. -/
def opCreate (op : FOp) (p : Str) : Nat :=
  match op with
  | .mkDisk _ q => if q = p then 1 else 0
  | _ => 0

/-- Whether one object would remove p on destruction, as a count. -/
def contrib (f : FileObj) (p : Str) : Nat :=
  if destructorRemoves f = some p then 1 else 0

/-- The number of live owners of path p: objects whose destructor would
    remove p. -/
def owners (hp : FileHeap) (p : Str) : Nat :=
  (hp.map (fun e => contrib e.2 p)).sum

/-! ## Theorems -/

theorem iequals_iff_asciiCaseEq (a b : Str) :
    iequals a b = true ↔ AsciiCaseEq a b := by
  induction a generalizing b with
  | nil =>
    cases b with
    | nil => simp [iequals, AsciiCaseEq]
    | cons y ys => simp [iequals, AsciiCaseEq]
  | cons x xs ih =>
    cases b with
    | nil => simp [iequals, AsciiCaseEq]
    | cons y ys =>
      simp only [iequals, Bool.and_eq_true, beq_iff_eq, AsciiCaseEq,
        List.forall₂_cons]
      exact and_congr Iff.rfl (ih ys)

theorem ciEquiv_eq_iequals (a b : Str) : ciEquiv a b = iequals a b := by
  induction a generalizing b with
  | nil =>
    cases b with
    | nil => rfl
    | cons y ys => rfl
  | cons x xs ih =>
    cases b with
    | nil => rfl
    | cons y ys =>
      rcases lt_trichotomy (lowerChar x) (lowerChar y) with hlt | heq | hgt
      · simp [ciEquiv, ciLess, iequals, hlt, ne_of_lt hlt]
      · have h1 : ¬ lowerChar x < lowerChar y := by simp [heq]
        have h2 : ¬ lowerChar y < lowerChar x := by simp [heq]
        simp [ciEquiv, ciLess, iequals, h1, h2, heq, ← ih ys, ciEquiv]
      · simp [ciEquiv, ciLess, iequals, hgt, not_lt.mpr (le_of_lt hgt),
          Ne.symm (ne_of_lt hgt)]

theorem ciEquiv_iff_asciiCaseEq (a b : Str) :
    ciEquiv a b = true ↔ AsciiCaseEq a b := by
  rw [ciEquiv_eq_iequals]
  exact iequals_iff_asciiCaseEq a b

theorem headerFind_eq_none_iff (m : HeaderMap) (k : Str) :
    headerFind m k = none ↔ ∀ kv ∈ m, ¬ AsciiCaseEq kv.1 k := by
  induction m with
  | nil => simp [headerFind]
  | cons kv rest ih =>
    cases h : ciEquiv kv.1 k with
    | true =>
      simp only [headerFind, h, if_true]
      constructor
      · intro hc; cases hc
      · intro hall
        exact absurd ((ciEquiv_iff_asciiCaseEq _ _).mp h)
          (hall kv (List.mem_cons_self _ _))
    | false =>
      simp only [headerFind, h, Bool.false_eq_true, if_false]
      rw [ih]
      constructor
      · intro hall kv2 hmem
        rcases List.mem_cons.mp hmem with rfl | hmem2
        · intro hc
          have := (ciEquiv_iff_asciiCaseEq kv2.1 k).mpr hc
          rw [h] at this
          cases this
        · exact hall kv2 hmem2
      · intro hall kv2 hmem
        exact hall kv2 (List.mem_cons_of_mem _ hmem)

/-- C3: keep_alive() returns true if and only if the request's header map
    (case-insensitive keys) has no Connection entry, or the Connection value
    equals "keep-alive" under ASCII case-insensitive comparison; for any
    other value it returns false. -/
theorem keep_alive_iff_connection (headers : HeaderMap) :
    keep_alive headers = true ↔
      ((∀ kv ∈ headers, ¬ AsciiCaseEq kv.1 ("connection".toList)) ∨
       (∃ v, headerFind headers ("connection".toList) = some v ∧
         AsciiCaseEq v ("keep-alive".toList))) := by
  unfold keep_alive
  cases hfind : headerFind headers ("connection".toList) with
  | none =>
    simp only [true_iff]
    exact Or.inl ((headerFind_eq_none_iff _ _).mp hfind)
  | some v =>
    constructor
    · intro h
      exact Or.inr ⟨v, rfl, (iequals_iff_asciiCaseEq _ _).mp h⟩
    · intro h
      rcases h with hnone | ⟨v2, hv2, heq⟩
      · exact absurd hfind (by rw [(headerFind_eq_none_iff _ _).mpr hnone]; simp)
      · cases hv2
        exact (iequals_iff_asciiCaseEq _ _).mpr heq

/-- C5 counterexample: the specification's acceptor formula disagrees with
    the code. At 16 effective workers the code spawns 16 / 4 = 4 acceptors
    while the claimed formula gives max(2, 16/6) = 2; at 1 effective worker
    the code spawns 0 acceptors while the claim says both counts are 1; and
    a configured count of -1 does not fall back to hardware concurrency:
    the unsigned comparison wraps it to 4294967295 workers. -/
theorem acceptors_spec_formula_cex :
    acceptorsCount 16 = 4 ∧ specAcceptors 16 = 2 ∧
    acceptorsCount 16 ≠ specAcceptors 16 ∧
    acceptorsCount 1 = 0 ∧ specAcceptors 1 = 1 ∧ regularWorkers 1 = 1 ∧
    effectiveWorkers (-1) 8 = 4294967295 := by
  decide

/-- C5 amended: the number of acceptor coroutines is workers / 4 (integer
    division), raised to 1 when that quotient is 0 and workers > 1; regular
    workers are workers minus acceptors; acceptors and regular workers sum
    to workers, acceptors are at least 1 whenever workers ≥ 2, and with
    workers = 1 the code spawns 0 acceptors and 1 regular worker. Because
    the configured count is compared against 0u in unsigned arithmetic,
    hardware concurrency is used only when it is exactly 0: a positive
    in-range count passes through unchanged, and a negative count wraps
    modulo 2^32 to a huge unsigned worker count. -/
theorem acceptors_amended (w : Nat) (hw : 1 ≤ w) :
    acceptorsCount w + regularWorkers w = w ∧
    (w = 1 → acceptorsCount w = 0 ∧ regularWorkers w = 1) ∧
    (2 ≤ w → 1 ≤ acceptorsCount w) ∧
    (4 ≤ w → acceptorsCount w = w / 4) ∧
    (2 ≤ w → w ≤ 3 → acceptorsCount w = 1) ∧
    (∀ hc : Nat, effectiveWorkers 0 hc = hc) ∧
    (∀ wc : Int, ∀ hc : Nat, 0 < wc → wc < 4294967296 →
      effectiveWorkers wc hc = wc.toNat) ∧
    (∀ wc : Int, ∀ hc : Nat, -4294967296 < wc → wc < 0 →
      effectiveWorkers wc hc = (wc + 4294967296).toNat) := by
  refine ⟨?_, ?_, ?_, ?_, ?_, ?_, ?_, ?_⟩
  · simp only [acceptorsCount, regularWorkers]
    split <;> omega
  · intro h1
    subst h1
    decide
  · intro h2
    simp only [acceptorsCount]
    split <;> omega
  · intro h4
    simp only [acceptorsCount]
    split <;> omega
  · intro h2 h3
    interval_cases w <;> decide
  · intro hc
    simp [effectiveWorkers, toUnsigned32]
  · intro wc hc hpos hlt
    have hmod : wc % 4294967296 = wc := by omega
    simp only [effectiveWorkers, toUnsigned32, hmod]
    rw [if_neg]
    omega
  · intro wc hc hlo hhi
    have hmod : wc % 4294967296 = wc + 4294967296 := by omega
    simp only [effectiveWorkers, toUnsigned32, hmod]
    rw [if_neg]
    omega

/-- Witness for acceptors_amended at 16 workers. -/
theorem acceptors_amended_witness :
    acceptorsCount 16 + regularWorkers 16 = 16 :=
  (acceptors_amended 16 (by decide)).1

/-- iequals is reflexive. -/
theorem iequals_refl (s : Str) : iequals s s = true := by
  induction s with
  | nil => rfl
  | cons c r ih => simp [iequals, ih]

theorem trimLeft_length_le (s : Str) : (trimLeft s).length ≤ s.length := by
  induction s with
  | nil => simp [trimLeft]
  | cons c r ih =>
    by_cases h : isSpaceB c = true
    · simp only [trimLeft, h, if_true]
      exact Nat.le_succ_of_le ih
    · simp [trimLeft, h]

theorem trimLeft_eq_self_of_length (s : Str)
    (h : (trimLeft s).length = s.length) : trimLeft s = s := by
  induction s with
  | nil => rfl
  | cons c r ih =>
    by_cases hc : isSpaceB c = true
    · exfalso
      simp only [trimLeft, hc, if_true] at h
      have := trimLeft_length_le r
      simp only [List.length_cons] at h
      omega
    · simp [trimLeft, hc]

theorem head_not_space_of_trimLeft_eq (c : Char) (r : Str)
    (h : trimLeft (c :: r) = c :: r) : isSpaceB c = false := by
  by_cases hc : isSpaceB c = true
  · exfalso
    simp only [trimLeft, hc, if_true] at h
    have h1 := trimLeft_length_le r
    have h2 := congrArg List.length h
    simp only [List.length_cons] at h2
    omega
  · simpa using hc

theorem trimLeft_cons_of_not_space (c : Char) (r : Str)
    (h : isSpaceB c = false) : trimLeft (c :: r) = c :: r := by
  simp [trimLeft, h]

theorem trimRight_length_le (s : Str) : (trimRight s).length ≤ s.length := by
  simp only [trimRight, List.length_reverse]
  calc (trimLeft s.reverse).length ≤ s.reverse.length := trimLeft_length_le _
    _ = s.length := by simp

/-- A string fixed by trimStr is fixed by trimLeft and trimRight. -/
theorem trim_fixes_of_trimStr_eq (s : Str) (h : trimStr s = s) :
    trimLeft s = s ∧ trimRight s = s := by
  have hlen1 : (trimStr s).length = s.length := by rw [h]
  have hlen2 : (trimStr s).length ≤ (trimLeft s).length := trimRight_length_le _
  have hlen3 : (trimLeft s).length ≤ s.length := trimLeft_length_le _
  have hL : trimLeft s = s := trimLeft_eq_self_of_length s (by omega)
  refine ⟨hL, ?_⟩
  calc trimRight s = trimRight (trimLeft s) := by rw [hL]
    _ = trimStr s := rfl
    _ = s := h

theorem mem_trimLeft (x : Char) (s : Str) (h : x ∈ trimLeft s) : x ∈ s := by
  induction s with
  | nil => simp [trimLeft] at h
  | cons c r ih =>
    by_cases hc : isSpaceB c = true
    · simp only [trimLeft, hc, if_true] at h
      exact List.mem_cons_of_mem _ (ih h)
    · simpa [trimLeft, hc] using h

theorem mem_trimStr (x : Char) (s : Str) (h : x ∈ trimStr s) : x ∈ s := by
  simp only [trimStr, trimRight] at h
  rw [List.mem_reverse] at h
  have h2 := mem_trimLeft x _ h
  rw [List.mem_reverse] at h2
  exact mem_trimLeft x _ h2

theorem mem_stripQuotes (x : Char) (s : Str) (h : x ∈ stripQuotes s) :
    x ∈ s := by
  unfold stripQuotes at h
  split at h
  · exact List.drop_subset _ _ (List.take_subset _ _ h)
  · exact h

theorem splitOnSemicolon_ne_nil (s : Str) : splitOnSemicolon s ≠ [] := by
  cases s with
  | nil => simp [splitOnSemicolon]
  | cons c r =>
    by_cases hc : c = ';'
    · simp [splitOnSemicolon, hc]
    · simp only [splitOnSemicolon, hc, if_false]
      cases splitOnSemicolon r <;> simp

theorem splitOnSemicolon_no_semi (s : Str) :
    ∀ p ∈ splitOnSemicolon s, (';' : Char) ∉ p := by
  induction s with
  | nil =>
    intro p hp
    simp only [splitOnSemicolon, List.mem_singleton] at hp
    simp [hp]
  | cons c r ih =>
    intro p hp
    by_cases hc : c = ';'
    · simp only [splitOnSemicolon, hc, if_true, List.mem_cons] at hp
      rcases hp with rfl | hp2
      · simp
      · exact ih p hp2
    · simp only [splitOnSemicolon, hc, if_false] at hp
      rcases hrec : splitOnSemicolon r with _ | ⟨t, ts⟩
      · exact absurd hrec (splitOnSemicolon_ne_nil r)
      · rw [hrec] at hp
        rcases List.mem_cons.mp hp with rfl | hp2
        · intro hmem
          rcases List.mem_cons.mp hmem with rfl | hmem2
          · exact hc rfl
          · exact ih t (by rw [hrec]; exact List.mem_cons_self _ _) hmem2
        · exact ih p (by rw [hrec]; exact List.mem_cons_of_mem _ hp2)

theorem extractLoop_no_semi (parts : List Str)
    (h : ∀ p ∈ parts, (';' : Char) ∉ p) :
    (';' : Char) ∉ extractLoop parts := by
  induction parts with
  | nil => simp [extractLoop]
  | cons p ps ih =>
    simp only [extractLoop]
    split
    · intro hmem
      have h1 := mem_stripQuotes _ _ hmem
      have h2 := mem_trimStr _ _ h1
      have h3 := List.drop_subset _ _ h2
      have h4 := mem_trimStr _ _ h3
      exact h p (List.mem_cons_self _ _) h4
    · exact ih (fun q hq => h q (List.mem_cons_of_mem _ hq))

/-- The extractor's output never contains a semicolon. -/
theorem extract_boundary_no_semi (ct : Str) :
    (';' : Char) ∉ extract_boundary ct :=
  extractLoop_no_semi _ (splitOnSemicolon_no_semi ct)

theorem splitOnSemicolon_eq_single (s : Str) (h : (';' : Char) ∉ s) :
    splitOnSemicolon s = [s] := by
  induction s with
  | nil => rfl
  | cons c r ih =>
    have hc : c ≠ ';' := fun hh => h (by simp [hh])
    have hr : (';' : Char) ∉ r := fun hh => h (List.mem_cons_of_mem _ hh)
    simp [splitOnSemicolon, hc, ih hr]

theorem take_len_append (u v : Str) : (u ++ v).take u.length = u := by
  induction u with
  | nil => simp
  | cons c r ih => simp [ih]

theorem drop_len_append (u v : Str) : (u ++ v).drop u.length = v := by
  induction u with
  | nil => simp
  | cons c r ih => simp [ih]

/-- Re-extracting from "boundary=" ++ b, for b without semicolons that is
    already trimmed, yields stripQuotes b. -/
theorem extract_boundary_of_clean (b : Str) (hsemi : (';' : Char) ∉ b)
    (htrim : trimStr b = b) :
    extract_boundary (("boundary=".toList) ++ b) = stripQuotes b := by
  have hsemi2 : (';' : Char) ∉ ("boundary=".toList) ++ b := by
    intro hmem
    rcases List.mem_append.mp hmem with h1 | h2
    · revert h1; decide
    · exact hsemi h2
  unfold extract_boundary
  rw [splitOnSemicolon_eq_single _ hsemi2]
  have hfix := trim_fixes_of_trimStr_eq b htrim
  have hcons : ("boundary=".toList) ++ b = 'b' :: (("oundary=".toList) ++ b) := rfl
  have hL : trimLeft (("boundary=".toList) ++ b) = ("boundary=".toList) ++ b := by
    rw [hcons]
    exact trimLeft_cons_of_not_space _ _ (by decide)
  have hR : trimLeft ((("boundary=".toList) ++ b).reverse) =
      (("boundary=".toList) ++ b).reverse := by
    rcases hb : b.reverse with _ | ⟨c, cr⟩
    · have hbe : b = [] := by
        have h0 := congrArg List.reverse hb
        simpa using h0
      subst hbe
      decide
    · have h2 : trimLeft b.reverse = b.reverse := by
        have h3 := congrArg List.reverse hfix.2
        simpa [trimRight] using h3
      rw [hb] at h2
      have hcmem : isSpaceB c = false := head_not_space_of_trimLeft_eq c cr h2
      rw [List.reverse_append, hb, List.cons_append]
      exact trimLeft_cons_of_not_space _ _ hcmem
  have hwhole : trimStr (("boundary=".toList) ++ b) = ("boundary=".toList) ++ b := by
    show trimRight (trimLeft _) = _
    rw [hL]
    show (trimLeft _).reverse = _
    rw [hR]
    simp
  simp only [extractLoop]
  rw [hwhole]
  rw [if_pos]
  · rw [drop_len_append, htrim]
  · unfold istartsWith
    rw [take_len_append]
    exact iequals_refl _

/-- C9 counterexample: the extractor strips only one matched pair of
    surrounding quotes per pass, so on s = ""x"" (doubled double quotes) the
    first extraction yields "x" (still quoted) and a second extraction over
    "boundary=" ++ that output strips again, yielding a different value. -/
theorem extract_boundary_idem_cex :
    extract_boundary (String.toList "boundary=\"\"x\"\"") =
      String.toList "\"x\"" ∧
    extract_boundary (("boundary=".toList) ++ String.toList "\"x\"") =
      String.toList "x" ∧
    extract_boundary (("boundary=".toList) ++
        extract_boundary (String.toList "boundary=\"\"x\"\"")) ≠
      extract_boundary (String.toList "boundary=\"\"x\"\"") := by
  refine ⟨by decide, by decide, ?_⟩
  decide

/-- C9 amended: the boundary extractor is idempotent on every input whose
    first extraction is a fixed point of trimming and quote-stripping (in
    particular whenever the extracted value is not itself wrapped in a
    matched pair of quotes): extracting again from "boundary=" ++ the first
    result returns that result unchanged. -/
theorem extract_boundary_idem_amended (s : Str)
    (htrim : trimStr (extract_boundary (("boundary=".toList) ++ s)) =
      extract_boundary (("boundary=".toList) ++ s))
    (hq : stripQuotes (extract_boundary (("boundary=".toList) ++ s)) =
      extract_boundary (("boundary=".toList) ++ s)) :
    extract_boundary (("boundary=".toList) ++
        extract_boundary (("boundary=".toList) ++ s)) =
      extract_boundary (("boundary=".toList) ++ s) := by
  have hns := extract_boundary_no_semi (("boundary=".toList) ++ s)
  rw [extract_boundary_of_clean _ hns htrim]
  exact hq

/-- Witness for extract_boundary_idem_amended at s = "xyz". -/
theorem extract_boundary_idem_amended_witness :
    extract_boundary (("boundary=".toList) ++
        extract_boundary (("boundary=".toList) ++ String.toList "xyz")) =
      extract_boundary (("boundary=".toList) ++ String.toList "xyz") :=
  extract_boundary_idem_amended (String.toList "xyz") (by decide) (by decide)

/-- A two-way branch equal to a value: one of the branches equals it. -/
theorem ite_eq_or {α : Type} {b : Prop} [Decidable b] {x y z : α}
    (h : (if b then x else y) = z) : x = z ∨ y = z := by
  split at h
  · exact Or.inl h
  · exact Or.inr h

theorem findFromAux_some_substrAt (hay pat : Str) :
    ∀ fuel start i, findFromAux hay pat fuel start = some i →
      substrAt hay pat i = true ∧ start ≤ i := by
  intro fuel
  induction fuel with
  | zero => intro start i h; simp [findFromAux] at h
  | succ n ih =>
    intro start i h
    unfold findFromAux at h
    cases hsp : pat.isPrefixOf (hay.drop start) with
    | true =>
      rw [hsp] at h
      simp only [if_true] at h
      cases h
      exact ⟨hsp, Nat.le_refl _⟩
    | false =>
      rw [hsp] at h
      simp only [Bool.false_eq_true, if_false] at h
      obtain ⟨h1, h2⟩ := ih (start + 1) i h
      exact ⟨h1, by omega⟩

theorem findFrom_some_substrAt (hay pat : Str) (start i : Nat)
    (h : findFrom hay pat start = some i) :
    substrAt hay pat i = true ∧ start ≤ i :=
  findFromAux_some_substrAt hay pat _ start i h

theorem substrAt_append (hay p1 p2 : Str) (i : Nat)
    (h1 : substrAt hay p1 i = true)
    (h2 : substrAt hay p2 (i + p1.length) = true) :
    substrAt hay (p1 ++ p2) i = true := by
  unfold substrAt at h1 h2 ⊢
  rw [List.isPrefixOf_iff_prefix] at h1 h2 ⊢
  obtain ⟨t, ht⟩ := h1
  have hd : hay.drop (i + p1.length) = t := by
    rw [← List.drop_drop, ← ht, List.drop_left]
  rw [hd] at h2
  obtain ⟨u, hu⟩ := h2
  exact ⟨u, by rw [← ht, ← hu]; simp⟩

theorem findFromAux_none_substrAt (hay pat : Str) :
    ∀ fuel start, findFromAux hay pat fuel start = none →
      ∀ j, start ≤ j → j < start + fuel → substrAt hay pat j = false := by
  intro fuel
  induction fuel with
  | zero => intro start _ j _ h2; omega
  | succ n ih =>
    intro start h j h1 h2
    unfold findFromAux at h
    cases hsp : pat.isPrefixOf (hay.drop start) with
    | true => rw [hsp] at h; simp at h
    | false =>
      rw [hsp] at h
      simp only [Bool.false_eq_true, if_false] at h
      rcases Nat.eq_or_lt_of_le h1 with rfl | hlt
      · simpa [substrAt] using hsp
      · exact ih (start + 1) h j hlt (by omega)

theorem substrAt_lt_length (hay pat : Str) (i : Nat) (hp : pat ≠ [])
    (h : substrAt hay pat i = true) : i < hay.length := by
  unfold substrAt at h
  rw [List.isPrefixOf_iff_prefix] at h
  have hle := h.length_le
  rw [List.length_drop] at hle
  have hpos : 0 < pat.length := List.length_pos.mpr hp
  omega

theorem occursIn_false_substrAt (hay pat : Str) (hp : pat ≠ [])
    (h : occursIn hay pat = false) : ∀ i, substrAt hay pat i = false := by
  intro i
  unfold occursIn findFrom at h
  cases hf : findFromAux hay pat (hay.length + 1 - 0) 0 with
  | some j => rw [hf] at h; simp at h
  | none =>
    by_cases hi : i < hay.length + 1
    · exact findFromAux_none_substrAt hay pat _ 0 hf i (Nat.zero_le _) (by omega)
    · cases hc : substrAt hay pat i with
      | false => rfl
      | true =>
        exact absurd (substrAt_lt_length hay pat i hp hc) (by omega)

/-- If the in-memory scanning loop returns with the closing flag set, the
    closing delimiter occurs somewhere in the body. -/
theorem parseLoopMem_closing (body db : Str) (maxFile maxFiles : Nat) :
    ∀ fuel pos tot ret res,
      parseLoopMem body db maxFile maxFiles fuel pos tot ret = .ok res →
      res.2 = true →
      ∃ i, substrAt body (db ++ ("--".toList)) i = true := by
  intro fuel
  induction fuel with
  | zero =>
    intro pos tot ret res h hres
    simp only [parseLoopMem, Except.ok.injEq] at h
    rw [← h] at hres
    simp at hres
  | succ n ih =>
    intro pos tot ret res h hres
    unfold parseLoopMem at h
    cases hf : findFrom body db pos with
    | none =>
      rw [hf] at h
      simp only [Except.ok.injEq] at h
      rw [← h] at hres
      simp at hres
    | some i =>
      rw [hf] at h
      simp only at h
      cases hcl : substrAt body ("--".toList) (i + db.length) with
      | true =>
        exact ⟨i, substrAt_append _ _ _ _
          (findFrom_some_substrAt _ _ _ _ hf).1 hcl⟩
      | false =>
        rw [hcl] at h
        simp only [Bool.false_eq_true, if_false] at h
        cases hf2 : findFrom body ("\r\n\r\n".toList)
            (if substrAt body ("\r\n".toList) (i + db.length) = true
              then i + db.length + 2 else i + db.length) with
        | none =>
          rw [hf2] at h
          simp only [Except.ok.injEq] at h
          rw [← h] at hres
          simp at hres
        | some headerEnd =>
          rw [hf2] at h
          simp only at h
          cases hsc : scanPartHeaders ((body.drop
              (if substrAt body ("\r\n".toList) (i + db.length) = true
                then i + db.length + 2 else i + db.length)).take
              (headerEnd -
                (if substrAt body ("\r\n".toList) (i + db.length) = true
                  then i + db.length + 2 else i + db.length))) with
          | error e => rw [hsc] at h; simp at h
          | ok nfc =>
            rw [hsc] at h
            simp only at h
            cases hf3 : findFrom body ("\r\n".toList) (headerEnd + 4) with
            | none =>
              rw [hf3] at h
              simp only [Except.ok.injEq] at h
              rw [← h] at hres
              simp at hres
            | some partEnd =>
              rw [hf3] at h
              simp only at h
              rcases ite_eq_or h with h1 | h1
              · rcases ite_eq_or h1 with h2 | h2
                · exact ih _ _ _ _ h2 hres
                · exact ih _ _ _ _ h2 hres
              · exact ih _ _ _ _ h1 hres

/-- C2 counterexample: a body with no closing delimiter whose part has a
    Content-Type header line that ends in its colon. The substr in the
    header scan starts past the end of the line, so parse_async throws
    std::out_of_range instead of returning an empty file map. -/
theorem parse_async_ctype_throw_cex :
    occursIn c2ThrowBody (("--".toList) ++ ("b".toList) ++ ("--".toList))
        = false ∧
    parse_async c2ThrowBody ("b".toList) 1048576 10485760 =
      .error "basic_string_view::substr out of range" := by
  refine ⟨by decide, by decide⟩

/-- C2 amended: if the closing delimiter "--boundary--" never occurs in
    the body, the in-memory parser produces no files: it either returns
    the empty file map (every non-exceptional exit without the closing
    flag clears the map) or throws from the header scan. -/
theorem parse_async_no_closing (body boundary : Str) (maxFile maxFiles : Nat)
    (h : occursIn body (("--".toList) ++ boundary ++ ("--".toList)) = false) :
    parse_async body boundary maxFile maxFiles = .ok [] ∨
    ∃ e, parse_async body boundary maxFile maxFiles = .error e := by
  unfold parse_async
  cases hf : (findFrom body (("--".toList) ++ boundary) 0).isNone with
  | true => left; simp only [hf]; rfl
  | false =>
    simp only [hf, Bool.false_eq_true, if_false]
    cases hp : parseLoopMem body (("--".toList) ++ boundary) maxFile
        maxFiles (body.length + 1) 0 0 [] with
    | error e =>
      right
      exact ⟨e, rfl⟩
    | ok r =>
      cases hflag : r.2 with
      | false =>
        left
        simp [hflag]
      | true =>
        exfalso
        obtain ⟨i, hi⟩ :=
          parseLoopMem_closing body _ maxFile maxFiles _ _ _ _ r hp hflag
        rw [List.append_assoc] at h
        have := occursIn_false_substrAt body _ (by simp) h i
        rw [List.append_assoc] at hi
        rw [this] at hi
        cases hi

/-- Witness for parse_async_no_closing: a body with one well-formed part
    and no closing delimiter parses to the empty map (no throw: its
    Content-Type line is absent). -/
theorem parse_async_no_closing_witness :
    parse_async c2Body ("b".toList) 1048576 10485760 = .ok [] ∨
    ∃ e, parse_async c2Body ("b".toList) 1048576 10485760 = .error e :=
  parse_async_no_closing c2Body ("b".toList) 1048576 10485760 (by decide)

/-- C4: evaluating the in-memory parser on a part whose content contains a
    CRLF shows the content is truncated at the first CRLF after the blank
    line ("ab"), not extended to the next boundary delimiter ("ab\r\ncd"). -/
theorem parse_async_crlf_truncation :
    parse_async c4Body ("b".toList) 1048576 10485760 =
      .ok [(("n".toList),
        ⟨("f.txt".toList), ("text/plain".toList), ("ab".toList), true⟩)] ∧
    ("ab".toList) ≠ ("ab\r\ncd".toList) := by
  constructor
  · decide
  · decide

/-- C7 counterexample: the in-memory parse_async performs no boundary
    validation; with the trailing-whitespace boundary "b " it produces a
    file rather than failing. -/
theorem parse_async_ws_boundary_cex :
    isSpaceB (("b ".toList).getLastD 'x') = true ∧
    parse_async c7Body ("b ".toList) 1048576 10485760 =
      .ok [(("n".toList), ⟨("f".toList), [], ("hi".toList), true⟩)] ∧
    parse_async c7Body ("b ".toList) 1048576 10485760 ≠ .ok [] := by
  refine ⟨by decide, by decide, by decide⟩

/-- C7 amended: only the from-file parser validates the boundary — it
    throws before any parsing for every boundary that is empty or ends in
    whitespace, so it never produces files for such boundaries; the
    in-memory parser has no such check. -/
theorem from_file_rejects_bad_boundary (b : Str)
    (h : b = [] ∨ isSpaceB (b.getLastD ' ') = true) :
    ∃ msg, parse_from_file_boundary_check b = .error msg := by
  unfold parse_from_file_boundary_check
  by_cases hb : b = []
  · exact ⟨"Empty boundary is not allowed", by rw [if_pos hb]⟩
  · have hws : isSpaceB (b.getLastD ' ') = true := by
      rcases h with h1 | h2
      · exact absurd h1 hb
      · exact h2
    refine ⟨"Boundary can't end with whitespace", ?_⟩
    rw [if_neg hb, if_pos ⟨hb, hws⟩]

/-- Witness for from_file_rejects_bad_boundary at boundary "b ". -/
theorem from_file_rejects_bad_boundary_witness :
    ∃ msg, parse_from_file_boundary_check ("b ".toList) = .error msg :=
  from_file_rejects_bad_boundary ("b ".toList) (Or.inr (by decide))

/-- An element of a list of strings is an infix of their concatenation. -/
theorem mem_flatten_infix {a : Str} {l : List Str} (h : a ∈ l) :
    a <:+: l.flatten := by
  induction l with
  | nil => cases h
  | cons x xs ih =>
    rcases List.mem_cons.mp h with rfl | h2
    · exact ⟨[], xs.flatten, by simp⟩
    · obtain ⟨s, t, hst⟩ := ih h2
      exact ⟨x ++ s, t, by rw [List.flatten_cons, ← hst]; simp⟩

theorem not_prefix_of_take_ne (p l : Str) (n : Nat) (hn : n ≤ p.length)
    (h : p.take n ≠ l.take n) : ¬ p <+: l := by
  intro hp
  obtain ⟨t, ht⟩ := hp
  apply h
  rw [← ht, List.take_append_of_le_length hn]

/-- "; Domain=" is not a prefix of any string starting with a piece whose
    first three characters differ from "; D". -/
theorem not_domain_prefix_append (u z : Str) (hu : 3 ≤ u.length)
    (hne : u.take 3 ≠ ("; D".toList)) :
    ¬ ("; Domain=".toList) <+: (u ++ z) := by
  apply not_prefix_of_take_ne _ _ 3 (by decide)
  rw [List.take_append_of_le_length hu]
  have hp3 : (("; Domain=".toList)).take 3 = ("; D".toList) := by decide
  rw [hp3]
  exact fun hc => hne hc.symm

/-- A name with the __Host- prefix does not have the __Secure- prefix. -/
theorem host_name_not_secure (nm : Str)
    (h : startsWithB nm ("__Host-".toList) = true) :
    startsWithB nm ("__Secure-".toList) = false := by
  cases hs : startsWithB nm ("__Secure-".toList) with
  | false => rfl
  | true =>
    exfalso
    unfold startsWithB at h hs
    rw [List.isPrefixOf_iff_prefix] at h hs
    obtain ⟨t, ht⟩ := h
    obtain ⟨u, hu⟩ := hs
    have h3 : nm.take 3 = ("__H".toList) := by
      rw [← ht, List.take_append_of_le_length (by decide)]
      decide
    have h4 : nm.take 3 = ("__S".toList) := by
      rw [← hu, List.take_append_of_le_length (by decide)]
      decide
    rw [h3] at h4
    exact absurd h4 (by decide)

/-- Membership in a conditional singleton-or-empty list gives membership in
    the nonempty branch together with the condition. -/
theorem mem_ite_nil {P : Prop} [Decidable P] {l : List Str} {a : Str}
    (h : a ∈ (if P then l else [])) : a ∈ l ∧ P := by
  split at h
  · exact ⟨h, by assumption⟩
  · cases h

/-- Every element of cookieAttrs has one of eight shapes; the Domain shape
    occurs only when the cookie's domain is nonempty. -/
theorem cookieAttrs_cases (c : CookieT) (e : Str) (a : Str)
    (ha : a ∈ cookieAttrs c e) :
    a = c.name ++ ("=".toList) ++ c.value ∨
    (a = ("; Domain=".toList) ++ c.domain ∧ c.domain ≠ []) ∨
    a = ("; Path=".toList) ++ c.path ∨
    a = ("; Max-Age=".toList) ++ (toString c.maxAge).toList ∨
    a = ("; Expires=".toList) ++ e ∨
    a = ("; Secure".toList) ∨
    a = ("; HttpOnly".toList) ∨
    a = ("; SameSite=".toList) ++ c.sameSite := by
  unfold cookieAttrs at ha
  rcases List.mem_append.mp ha with h | h
  · rcases List.mem_append.mp h with h | h
    · rcases List.mem_append.mp h with h | h
      · rcases List.mem_append.mp h with h | h
        · rcases List.mem_append.mp h with h | h
          · rcases List.mem_append.mp h with h | h
            · left
              simpa using h
            · obtain ⟨hm, hP⟩ := mem_ite_nil h
              right; left
              exact ⟨by simpa using hm, hP⟩
          · obtain ⟨hm, _⟩ := mem_ite_nil h
            right; right; left
            simpa using hm
        · obtain ⟨hm, _⟩ := mem_ite_nil h
          rcases List.mem_cons.mp hm with h2 | h2
          · right; right; right; left
            exact h2
          · right; right; right; right; left
            simpa using h2
      · obtain ⟨hm, _⟩ := mem_ite_nil h
        right; right; right; right; right; left
        simpa using hm
    · obtain ⟨hm, _⟩ := mem_ite_nil h
      right; right; right; right; right; right; left
      simpa using hm
  · obtain ⟨hm, _⟩ := mem_ite_nil h
    right; right; right; right; right; right; right
    simpa using hm

/-- C6 counterexample: set_cookie accepts a __Host- cookie whose value
    contains "; Domain=", and the emitted Set-Cookie line then contains the
    substring "; Domain=" even though the claim forbids it. -/
theorem set_cookie_host_domain_cex :
    startsWithB cexHostCookie.name ("__Host-".toList) = true ∧
    (set_cookie [] cexHostCookie []).toOption =
      some [("__Host-a=v; Domain=e; Path=/; Secure".toList)] ∧
    ("; Domain=".toList) <:+: ("__Host-a=v; Domain=e; Path=/; Secure".toList) := by
  refine ⟨by decide, by decide, by decide⟩

/-- C6 amended: for a __Host- name, set_cookie fails (leaving the cookie
    list unchanged) unless Secure is set, the domain is empty and the path
    is "/"; every successfully emitted line contains "; Secure" and
    "; Path=/", and no emitted attribute is a Domain attribute (none starts
    with "; Domain="), although the raw substring "; Domain=" can still
    appear inside attacker-chosen fields such as the value. -/
theorem set_cookie_host_amended (cookies : List Str) (c : CookieT) (e : Str)
    (hname : startsWithB c.name ("__Host-".toList) = true) :
    (¬ (c.secure = true ∧ c.domain = [] ∧ c.path = ("/".toList)) →
      set_cookie cookies c e =
        .error "__Host- cookies require Secure, no Domain, Path=/") ∧
    ((c.secure = true ∧ c.domain = [] ∧ c.path = ("/".toList)) →
      set_cookie cookies c e =
        .ok (cookies ++ [(cookieAttrs c e).flatten]) ∧
      ("; Secure".toList) <:+: (cookieAttrs c e).flatten ∧
      ("; Path=/".toList) <:+: (cookieAttrs c e).flatten ∧
      ∀ a ∈ cookieAttrs c e, ¬ ("; Domain=".toList) <+: a) := by
  have hsp := host_name_not_secure c.name hname
  constructor
  · intro hcond
    unfold set_cookie
    rw [if_neg, if_pos ⟨hname, hcond⟩]
    rintro ⟨hs, _⟩
    rw [hsp] at hs
    cases hs
  · rintro ⟨hsec, hdom, hpath⟩
    have hok : set_cookie cookies c e =
        .ok (cookies ++ [(cookieAttrs c e).flatten]) := by
      unfold set_cookie
      rw [if_neg, if_neg]
      · rintro ⟨_, hc⟩
        exact hc ⟨hsec, hdom, hpath⟩
      · rintro ⟨hs, _⟩
        rw [hsp] at hs
        cases hs
    refine ⟨hok, ?_, ?_, ?_⟩
    · apply mem_flatten_infix
      by_cases hma : c.maxAge > 0 <;> by_cases hho : c.httpOnly = true <;>
        by_cases hss : c.sameSite = [] <;>
        simp [cookieAttrs, hsec, hdom, hpath, hma, hho, hss]
    · have hpe : ("; Path=/".toList) = ("; Path=".toList) ++ ("/".toList) := by
        decide
      rw [hpe, ← hpath]
      apply mem_flatten_infix
      by_cases hma : c.maxAge > 0 <;> by_cases hho : c.httpOnly = true <;>
        by_cases hss : c.sameSite = [] <;>
        simp [cookieAttrs, hsec, hdom, hpath, hma, hho, hss]
    · intro a ha
      have hH := hname
      unfold startsWithB at hH
      rw [List.isPrefixOf_iff_prefix] at hH
      obtain ⟨r, hr⟩ := hH
      rcases cookieAttrs_cases c e a ha with h | ⟨_, hne⟩ | h | h | h | h | h | h
      · subst h
        rw [← hr, List.append_assoc, List.append_assoc]
        exact not_domain_prefix_append _ _ (by decide) (by decide)
      · exact absurd hdom hne
      · subst h
        exact not_domain_prefix_append _ _ (by decide) (by decide)
      · subst h
        exact not_domain_prefix_append _ _ (by decide) (by decide)
      · subst h
        exact not_domain_prefix_append _ _ (by decide) (by decide)
      · subst h
        decide
      · subst h
        decide
      · subst h
        exact not_domain_prefix_append _ _ (by decide) (by decide)

/-- Witness for set_cookie_host_amended on a well-formed __Host- cookie. -/
theorem set_cookie_host_amended_witness :
    ("; Secure".toList) <:+:
      (cookieAttrs okHostCookie ("2026-Oct-11 10:00:00".toList)).flatten :=
  (((set_cookie_host_amended [] okHostCookie
      ("2026-Oct-11 10:00:00".toList) (by decide)).2) (by decide)).2.1

theorem splitAllSlash_ne_nil (s : Str) : splitAllSlash s ≠ [] := by
  cases s with
  | nil => simp [splitAllSlash]
  | cons c r =>
    by_cases hc : c = '/'
    · simp [splitAllSlash, hc]
    · simp only [splitAllSlash, hc, if_false]
      cases splitAllSlash r <;> simp

theorem splitAllSlash_no_slash (u : Str) (hu : ('/' : Char) ∉ u) :
    splitAllSlash u = [u] := by
  induction u with
  | nil => rfl
  | cons c r ih =>
    have hc : c ≠ '/' := fun he => hu (by simp [he])
    have hr : ('/' : Char) ∉ r := fun hm => hu (List.mem_cons_of_mem _ hm)
    simp [splitAllSlash, hc, ih hr]

theorem splitAllSlash_append (u t : Str) (hu : ('/' : Char) ∉ u) :
    splitAllSlash (u ++ '/' :: t) = u :: splitAllSlash t := by
  induction u with
  | nil => simp [splitAllSlash]
  | cons c r ih =>
    have hc : c ≠ '/' := fun he => hu (by simp [he])
    have hr : ('/' : Char) ∉ r := fun hm => hu (List.mem_cons_of_mem _ hm)
    rw [List.cons_append]
    simp only [splitAllSlash, hc, if_false]
    rw [ih hr]

theorem splitSegs_no_slash (u : Str) (hu : ('/' : Char) ∉ u) (hne : u ≠ []) :
    splitSegs u = [u] := by
  unfold splitSegs
  rw [splitAllSlash_no_slash u hu]
  simp [hne]

theorem splitSegs_slash_cons (u t : Str) (hu : ('/' : Char) ∉ u) :
    splitSegs (u ++ '/' :: t) = u :: splitSegs t := by
  unfold splitSegs
  rw [splitAllSlash_append u t hu]
  rcases hsp : splitAllSlash t with _ | ⟨p, ps⟩
  · exact absurd hsp (splitAllSlash_ne_nil t)
  · simp only
    have hgl : (u :: p :: ps).getLastD ['/'] = (p :: ps).getLastD ['/'] := by
      conv_lhs => rw [List.getLastD_cons, List.getLastD_cons]
      conv_rhs => rw [List.getLastD_cons]
    by_cases hlast : (p :: ps).getLastD ['/'] = []
    · rw [if_pos (by rw [hgl]; exact hlast), if_pos hlast]
      rfl
    · rw [if_neg (by rw [hgl]; exact hlast), if_neg hlast]

theorem joinSegs_ne_nil (s : Str) (rest : List Str) (hs : s ≠ []) :
    joinSegs (s :: rest) ≠ [] := by
  cases rest with
  | nil => simpa [joinSegs] using hs
  | cons s2 r2 =>
    simp only [joinSegs]
    intro hc
    rcases List.append_eq_nil.mp hc with ⟨_, h2⟩
    cases h2

theorem getLastD_append_ne (u t : Str) (ht : t ≠ []) (d : Char) :
    (u ++ t).getLastD d = t.getLastD d := by
  induction u generalizing d with
  | nil => rfl
  | cons c r ih =>
    rw [List.cons_append, List.getLastD_cons]
    cases hr : r ++ t with
    | nil =>
      exact absurd (List.append_eq_nil.mp hr).2 ht
    | cons a l =>
      rw [← hr, ih c]
      cases t with
      | nil => exact absurd rfl ht
      | cons b m => rfl

theorem joinSegs_getLastD_ne (segs : List Str) (hne : segs ≠ [])
    (hseg : ∀ s ∈ segs, s ≠ [] ∧ ('/' : Char) ∉ s) :
    ∀ d, (joinSegs segs).getLastD d ≠ '/' := by
  induction segs with
  | nil => exact absurd rfl hne
  | cons s rest ih =>
    intro d
    cases rest with
    | nil =>
      obtain ⟨hsne, hsns⟩ := hseg s (List.mem_cons_self _ _)
      simp only [joinSegs]
      intro hc
      have hmem : s.getLastD d ∈ s := by
        cases s with
        | nil => exact absurd rfl hsne
        | cons c r =>
          rw [List.getLastD_cons]
          exact List.getLastD_mem_cons r c
      rw [hc] at hmem
      exact hsns hmem
    | cons s2 r2 =>
      obtain ⟨h2ne, _⟩ := hseg s2 (List.mem_cons_of_mem _ (List.mem_cons_self _ _))
      simp only [joinSegs]
      rw [getLastD_append_ne _ _ (by simp) d, List.getLastD_cons]
      exact ih (by simp)
        (fun x hx => hseg x (List.mem_cons_of_mem _ hx)) '/'

theorem normalize_joinPath (segs : List Str)
    (hseg : ∀ s ∈ segs, s ≠ [] ∧ ('/' : Char) ∉ s) :
    normalize_path (joinPath segs) = joinPath segs := by
  unfold normalize_path
  rw [if_neg (by simp [joinPath])]
  cases segs with
  | nil =>
    rw [if_neg]
    rintro ⟨h1, _⟩
    simp [joinPath, joinSegs] at h1
  | cons s rest =>
    rw [if_neg]
    rintro ⟨_, h2⟩
    have hsne : s ≠ [] := (hseg s (List.mem_cons_self _ _)).1
    rw [joinPath, List.getLastD_cons] at h2
    exact joinSegs_getLastD_ne (s :: rest) (by simp) hseg '/' h2

theorem splitSegs_joinSegs (segs : List Str)
    (hseg : ∀ s ∈ segs, s ≠ [] ∧ ('/' : Char) ∉ s) :
    splitSegs (joinSegs segs) = segs := by
  induction segs with
  | nil => rfl
  | cons s rest ih =>
    obtain ⟨hsne, hsns⟩ := hseg s (List.mem_cons_self _ _)
    have hsall : ∀ x ∈ s, x ≠ '/' := fun x hx he => hsns (he ▸ hx)
    cases rest with
    | nil =>
      show splitSegs (joinSegs [s]) = [s]
      rw [joinSegs]
      exact splitSegs_no_slash s hsns hsne
    | cons s2 r2 =>
      have hrest : ∀ x ∈ s2 :: r2, x ≠ [] ∧ ('/' : Char) ∉ x :=
        fun x hx => hseg x (List.mem_cons_of_mem _ hx)
      show splitSegs (joinSegs (s :: s2 :: r2)) = s :: s2 :: r2
      rw [joinSegs, splitSegs_slash_cons s _ hsns, ih hrest]

theorem split_path_joinPath (segs : List Str)
    (hseg : ∀ s ∈ segs, s ≠ [] ∧ ('/' : Char) ∉ s) :
    split_path (normalize_path (joinPath segs)) = segs := by
  rw [normalize_joinPath segs hseg]
  cases segs with
  | nil => rfl
  | cons s rest =>
    have hsne : s ≠ [] := (hseg s (List.mem_cons_self _ _)).1
    unfold split_path joinPath
    rw [if_neg]
    · show splitSegs (joinSegs (s :: rest)) = s :: rest
      exact splitSegs_joinSegs _ hseg
    · intro hc
      have : joinSegs (s :: rest) = [] := by
        have := congrArg List.tail hc
        simpa using this
      exact joinSegs_ne_nil s rest hsne this

/-- Inserting into an empty trie builds a single spine. -/
theorem insertSegs_empty {α : Type} (segs : List Str) (m : Method) (h : α)
    (hval : ∀ s ∈ segs, s ≠ [] ∧ isBrokenSegment s = false ∧
      (isDynamicSegment s = true → extract_param_name s ≠ [])) :
    insertSegs (emptyTrie : Trie α) segs m h = .ok (spine segs m h) := by
  induction segs with
  | nil =>
    show insertSegs (Trie.node [] [] [] none) [] m h = _
    rw [insertSegs]
    simp [valFind, spine]
  | cons s rest ih =>
    obtain ⟨hne, hnb, hdynname⟩ := hval s (List.mem_cons_self _ _)
    have hrest := fun x hx => hval x (List.mem_cons_of_mem _ hx)
    show insertSegs (Trie.node [] [] [] none) (s :: rest) m h = _
    rw [insertSegs]
    rw [if_neg hne, hnb]
    simp only [Bool.false_eq_true, if_false]
    by_cases hd : isDynamicSegment s = true
    · rw [hd]
      simp only [if_true]
      rw [if_neg (hdynname hd)]
      rw [ih hrest]
      rw [spine, if_pos hd]
    · rw [Bool.not_eq_true] at hd
      rw [hd]
      simp only [Bool.false_eq_true, if_false]
      rw [childFind]
      simp only [Option.getD_none]
      rw [ih hrest]
      rw [spine, if_neg (by rw [hd]; simp)]
      simp [childSet]

/-- One step of find through a node whose only edge is dynamic. -/
theorem findSegs_dyn_node {α : Type} (vs : List (Method × α)) (pr : Str)
    (d : Trie α) (seg : Str) (rest : List Str) (m : Method)
    (ps : List (Str × Str)) (hs : seg ≠ []) :
    findSegs (Trie.node vs [] pr (some d)) (seg :: rest) m ps =
      findSegs d rest m (paramsEmplace ps pr seg) := by
  rw [findSegs, if_neg hs]
  rfl

/-- One step of find through a node with a single literal edge, taken. -/
theorem findSegs_lit_node {α : Type} (vs : List (Method × α)) (k : Str)
    (c : Trie α) (pr : Str) (dyn : Option (Trie α)) (rest : List Str)
    (m : Method) (ps : List (Str × Str)) (hs : k ≠ []) :
    findSegs (Trie.node vs [(k, c)] pr dyn) (k :: rest) m ps =
      findSegs c rest m ps := by
  rw [findSegs, if_neg hs]
  simp [Trie.children, childFind]

/-- find at a terminal node looks the method up. -/
theorem findSegs_nil_node {α : Type} (vs : List (Method × α))
    (cs : List (Str × Trie α)) (pr : Str) (dyn : Option (Trie α))
    (m : Method) (ps : List (Str × Str)) :
    findSegs (Trie.node vs cs pr dyn) [] m ps =
      match valFind vs m with
      | some h => .ok (some (h, ps))
      | none => .ok none := by
  rw [findSegs]
  rfl

/-- find on a spine with a substitution of the dynamic segments succeeds
    and accumulates exactly the emplaced bindings. -/
theorem findSegs_spine {α : Type} (m : Method) (h : α) :
    ∀ segs subst ps, List.Forall₂ SubstOk segs subst →
    (∀ s ∈ segs, s ≠ []) →
    findSegs (spine segs m h) subst m ps =
      .ok (some (h, paramsAcc ps (segs.zip subst))) := by
  intro segs subst ps hforall
  induction hforall generalizing ps with
  | nil =>
    intro _
    show findSegs (Trie.node [(m, h)] [] [] none) [] m ps = _
    rw [findSegs_nil_node]
    simp [valFind, paramsAcc]
  | @cons s u segs2 subst2 hsu htail ih =>
    intro hne
    have hsne : s ≠ [] := hne s (List.mem_cons_self _ _)
    have hrestne := fun x hx => hne x (List.mem_cons_of_mem _ hx)
    by_cases hd : isDynamicSegment s = true
    · obtain ⟨hune, _⟩ := hsu.1 hd
      show findSegs (spine (s :: segs2) m h) (u :: subst2) m ps = _
      rw [spine, if_pos hd, findSegs_dyn_node _ _ _ _ _ _ _ hune]
      rw [ih _ hrestne]
      have hacc : paramsAcc ps ((s :: segs2).zip (u :: subst2)) =
          paramsAcc (paramsEmplace ps (extract_param_name s) u)
            (segs2.zip subst2) := by
        simp [paramsAcc, hd]
      rw [hacc]
    · rw [Bool.not_eq_true] at hd
      have hus : u = s := hsu.2 hd
      subst hus
      show findSegs (spine (u :: segs2) m h) (u :: subst2) m ps = _
      rw [spine, if_neg (by rw [hd]; simp)]
      rw [findSegs_lit_node _ _ _ _ _ _ _ _ hsne]
      rw [ih _ hrestne]
      have hacc : paramsAcc ps ((u :: segs2).zip (u :: subst2)) =
          paramsAcc ps (segs2.zip subst2) := by
        simp [paramsAcc, hd]
      rw [hacc]

theorem ciEquiv_refl (a : Str) : ciEquiv a a = true := by
  rw [ciEquiv_eq_iequals]
  exact iequals_refl a

theorem ciEquiv_symm (a b : Str) : ciEquiv a b = ciEquiv b a := by
  unfold ciEquiv
  exact Bool.and_comm _ _

theorem paramsLookup_eq_none (ps : List (Str × Str)) (k : Str)
    (h : ∀ kv ∈ ps, ciEquiv kv.1 k = false) : paramsLookup ps k = none := by
  induction ps with
  | nil => rfl
  | cons kv rest ih =>
    rw [paramsLookup]
    rw [h kv (List.mem_cons_self _ _)]
    simp only [Bool.false_eq_true, if_false]
    exact ih (fun x hx => h x (List.mem_cons_of_mem _ hx))

theorem paramsLookup_append_none (xs ys : List (Str × Str)) (k : Str)
    (hx : paramsLookup xs k = none) :
    paramsLookup (xs ++ ys) k = paramsLookup ys k := by
  induction xs with
  | nil => rfl
  | cons kv rest ih =>
    rw [paramsLookup] at hx
    rw [List.cons_append, paramsLookup]
    cases hq : ciEquiv kv.1 k with
    | true => rw [hq] at hx; simp at hx
    | false =>
      rw [hq] at hx
      simp only [Bool.false_eq_true, if_false] at hx ⊢
      exact ih hx

theorem paramsEmplace_clean (ps : List (Str × Str)) (k v : Str)
    (h : ∀ kv ∈ ps, ciEquiv kv.1 k = false) :
    paramsEmplace ps k v = ps ++ [(k, v)] := by
  unfold paramsEmplace
  rw [if_neg]
  intro hc
  obtain ⟨kv, hmem, hq⟩ := List.any_eq_true.mp hc
  rw [h kv hmem] at hq
  cases hq

theorem foldEmplace_extends (bs : List (Str × Str)) :
    ∀ ps, ∃ extra, foldEmplace ps bs = ps ++ extra := by
  induction bs with
  | nil => exact fun ps => ⟨[], by simp [foldEmplace]⟩
  | cons b rest ih =>
    intro ps
    have hstep : foldEmplace ps (b :: rest) =
        foldEmplace (paramsEmplace ps b.1 b.2) rest := by
      simp [foldEmplace]
    rw [hstep]
    unfold paramsEmplace
    split
    · exact ih ps
    · obtain ⟨extra, hex⟩ := ih (ps ++ [(b.1, b.2)])
      exact ⟨[(b.1, b.2)] ++ extra, by rw [hex, List.append_assoc]⟩

/-- Looking a binding up after folding emplace over pairwise-distinct
    bindings into an accumulator free of the key. -/
theorem foldEmplace_lookup (k v : Str) (bs : List (Str × Str)) :
    ∀ ps, (k, v) ∈ bs →
    bs.Pairwise (fun a b => ciEquiv a.1 b.1 = false) →
    (∀ kv ∈ ps, ciEquiv kv.1 k = false) →
    paramsLookup (foldEmplace ps bs) k = some v := by
  induction bs with
  | nil => intro ps h; cases h
  | cons b rest ih =>
    intro ps hmem hpw hclean
    have hstep : foldEmplace ps (b :: rest) =
        foldEmplace (paramsEmplace ps b.1 b.2) rest := by
      simp [foldEmplace]
    rw [hstep]
    rcases List.mem_cons.mp hmem with heq | hmem2
    · have hb1 : b.1 = k := by rw [← heq]
      have hb2 : b.2 = v := by rw [← heq]
      rw [hb1, hb2, paramsEmplace_clean ps k v hclean]
      obtain ⟨extra, hex⟩ := foldEmplace_extends rest (ps ++ [(k, v)])
      rw [hex, List.append_assoc,
        paramsLookup_append_none _ _ _ (paramsLookup_eq_none ps k hclean)]
      rw [List.cons_append, paramsLookup, ciEquiv_refl]
      rfl
    · have hbk : ciEquiv b.1 k = false := by
        have hrel := (List.pairwise_cons.mp hpw).1 (k, v) hmem2
        exact hrel
      apply ih (paramsEmplace ps b.1 b.2) hmem2 (List.pairwise_cons.mp hpw).2
      intro kv hkv
      unfold paramsEmplace at hkv
      split at hkv
      · exact hclean kv hkv
      · rcases List.mem_append.mp hkv with hin | hone
        · exact hclean kv hin
        · have : kv = (b.1, b.2) := List.mem_singleton.mp hone
          rw [this]
          exact hbk

theorem paramsAcc_eq_foldEmplace (pairs : List (Str × Str)) :
    ∀ ps, paramsAcc ps pairs = foldEmplace ps (dynBindings pairs) := by
  induction pairs with
  | nil => intro ps; rfl
  | cons su rest ih =>
    intro ps
    by_cases hd : isDynamicSegment su.1 = true
    · have h1 : paramsAcc ps (su :: rest) =
          paramsAcc (paramsEmplace ps (extract_param_name su.1) su.2) rest := by
        simp [paramsAcc, hd]
      have h2 : dynBindings (su :: rest) =
          (extract_param_name su.1, su.2) :: dynBindings rest := by
        simp [dynBindings, hd]
      rw [h1, h2, ih]
      simp [foldEmplace]
    · rw [Bool.not_eq_true] at hd
      have h1 : paramsAcc ps (su :: rest) = paramsAcc ps rest := by
        simp [paramsAcc, hd]
      have h2 : dynBindings (su :: rest) = dynBindings rest := by
        simp [dynBindings, hd]
      rw [h1, h2, ih]

/-- The substituted segments are themselves non-empty and slash-free. -/
theorem subst_props (segs subst : List Str)
    (hsub : List.Forall₂ SubstOk segs subst)
    (hseg : ∀ s ∈ segs, s ≠ [] ∧ ('/' : Char) ∉ s) :
    ∀ u ∈ subst, u ≠ [] ∧ ('/' : Char) ∉ u := by
  induction hsub with
  | nil => intro u hu; cases hu
  | @cons s u segs2 subst2 hsu htail ih =>
    intro w hw
    rcases List.mem_cons.mp hw with rfl | hw2
    · by_cases hd : isDynamicSegment s = true
      · exact hsu.1 hd
      · rw [Bool.not_eq_true] at hd
        rw [hsu.2 hd]
        exact hseg s (List.mem_cons_self _ _)
    · exact ih (fun x hx => hseg x (List.mem_cons_of_mem _ hx)) w hw2

/-- C1 counterexample: with the pattern /{x}/{x} (the same parameter name at
    two dynamic positions) and substitutions a and b, find returns the
    parameter map [("x","a")] — the second dynamic segment's name is bound
    to "a", not to its substituted text "b", so the claim as stated fails. -/
theorem trie_roundtrip_dup_names_cex :
    ((insertTrie (emptyTrie : Trie Nat) .get (("/{x}/{x}").toList) 7).bind
      (fun t => findTrie t .get (("/a/b").toList))).toOption =
      some (some (7, [(("x").toList, ("a").toList)])) ∧
    isDynamicSegment (("{x}").toList) = true ∧
    extract_param_name (("{x}").toList) = ("x").toList ∧
    paramsLookup [(("x").toList, ("a").toList)] (("x").toList) =
      some (("a").toList) ∧
    (("a").toList) ≠ (("b").toList) := by
  refine ⟨by decide, by decide, by decide, by decide, by decide⟩

/-- C1 amended: for every pattern of '/'-separated non-empty well-formed
    segments whose dynamic parameter names are pairwise distinct under the
    params map's case-insensitive comparator, inserting into an empty trie
    succeeds, and find on the path with every dynamic segment replaced by an
    arbitrary non-empty slash-free segment returns the same handler and a
    parameter map binding each dynamic segment's name to the substituted
    text. -/
theorem trie_insert_find_roundtrip {α : Type} (m : Method) (h0 : α)
    (segs subst : List Str)
    (hpat : ∀ s ∈ segs, s ≠ [] ∧ ('/' : Char) ∉ s ∧
      isBrokenSegment s = false ∧
      (isDynamicSegment s = true → extract_param_name s ≠ []))
    (hsub : List.Forall₂ SubstOk segs subst)
    (hnames : (dynBindings (segs.zip subst)).Pairwise
      (fun a b => ciEquiv a.1 b.1 = false)) :
    ∃ t ps,
      insertTrie (emptyTrie : Trie α) m (joinPath segs) h0 = .ok t ∧
      findTrie t m (joinPath subst) = .ok (some (h0, ps)) ∧
      ∀ su ∈ segs.zip subst, isDynamicSegment su.1 = true →
        paramsLookup ps (extract_param_name su.1) = some su.2 := by
  have hpat1 : ∀ s ∈ segs, s ≠ [] ∧ ('/' : Char) ∉ s :=
    fun s hs => ⟨(hpat s hs).1, (hpat s hs).2.1⟩
  have hsubprops := subst_props segs subst hsub hpat1
  refine ⟨spine segs m h0, paramsAcc [] (segs.zip subst), ?_, ?_, ?_⟩
  · unfold insertTrie
    rw [split_path_joinPath segs hpat1]
    exact insertSegs_empty segs m h0
      (fun s hs => ⟨(hpat s hs).1, (hpat s hs).2.2.1, (hpat s hs).2.2.2⟩)
  · unfold findTrie
    rw [split_path_joinPath subst hsubprops]
    exact findSegs_spine m h0 segs subst [] hsub
      (fun s hs => (hpat s hs).1)
  · intro su hsu hd
    rw [paramsAcc_eq_foldEmplace]
    apply foldEmplace_lookup _ _ _ _ ?_ hnames (by intro kv hkv; cases hkv)
    unfold dynBindings
    apply List.mem_filterMap.mpr
    exact ⟨su, hsu, by rw [hd]; simp⟩

/-- Witness for trie_insert_find_roundtrip at pattern /{id} with
    substitution 7. -/
theorem trie_insert_find_roundtrip_witness :
    ∃ t ps,
      insertTrie (emptyTrie : Trie Nat) .get
        (joinPath [dynSeg (("id").toList)]) 5 = .ok t ∧
      findTrie t .get (joinPath [(("7").toList)]) = .ok (some (5, ps)) ∧
      ∀ su ∈ ([dynSeg (("id").toList)]).zip [(("7").toList)],
        isDynamicSegment su.1 = true →
          paramsLookup ps (extract_param_name su.1) = some su.2 :=
  trie_insert_find_roundtrip .get 5 [dynSeg (("id").toList)] [(("7").toList)]
    (by decide)
    (List.Forall₂.cons ⟨fun _ => by decide, fun h => absurd h (by decide)⟩
      List.Forall₂.nil)
    (by decide)

theorem dynSeg_ne_nil (n : Str) : dynSeg n ≠ [] := by simp [dynSeg]

theorem dynSeg_getLastD (n : Str) : (dynSeg n).getLastD ' ' = cbrace := by
  unfold dynSeg
  rw [List.getLastD_cons, List.getLastD_concat]

theorem dynSeg_dynamic (n : Str) : isDynamicSegment (dynSeg n) = true := by
  unfold isDynamicSegment
  rw [dynSeg_getLastD]
  have hlen : (dynSeg n).length = n.length + 2 := by simp [dynSeg]
  have hhead : (dynSeg n).headD ' ' = obrace := by simp [dynSeg]
  rw [hhead, hlen]
  simp

theorem dynSeg_not_broken (n : Str) : isBrokenSegment (dynSeg n) = false := by
  unfold isBrokenSegment
  rw [dynSeg_getLastD]
  have hhead : (dynSeg n).headD ' ' = obrace := by simp [dynSeg]
  rw [hhead]
  simp

theorem dynSeg_param (n : Str) : extract_param_name (dynSeg n) = n := by
  by_cases hn : n = []
  · subst hn
    decide
  · have hpos : 0 < n.length := List.length_pos.mpr hn
    have hlen : (dynSeg n).length = n.length + 2 := by simp [dynSeg]
    unfold extract_param_name
    rw [if_pos (by rw [hlen]; omega)]
    show ((obrace :: (n ++ [cbrace])).drop 1).take _ = n
    rw [List.drop_succ_cons, List.drop_zero, hlen]
    have harith : n.length + 2 - 2 = n.length := by omega
    rw [harith]
    exact take_len_append n [cbrace]

theorem dynSeg_no_slash (n : Str) (h : ('/' : Char) ∉ n) :
    ('/' : Char) ∉ dynSeg n := by
  unfold dynSeg
  intro hmem
  rcases List.mem_cons.mp hmem with hob | hmem2
  · revert hob
    decide
  · rcases List.mem_append.mp hmem2 with hin | hcb
    · exact h hin
    · revert hcb
      decide

theorem lit_seg_not_dynamic (s : Str) (h : s.headD ' ' ≠ obrace) :
    isDynamicSegment s = false := by
  unfold isDynamicSegment
  have hb : (s.headD ' ' == obrace) = false := beq_eq_false_iff_ne.mpr h
  rw [hb]
  simp

theorem lit_seg_not_broken (s : Str) (h1 : s.headD ' ' ≠ obrace)
    (h2 : s.getLastD ' ' ≠ cbrace) : isBrokenSegment s = false := by
  unfold isBrokenSegment
  have hb1 : (s.headD ' ' == obrace) = false := beq_eq_false_iff_ne.mpr h1
  have hb2 : (s.getLastD ' ' == cbrace) = false := beq_eq_false_iff_ne.mpr h2
  rw [hb1, hb2]
  rfl

/-- One step of insert at a terminal node with a free method slot. -/
theorem insertSegs_nil_step {α : Type} (vs : List (Method × α))
    (cs : List (Str × Trie α)) (pr : Str) (dyn : Option (Trie α))
    (m : Method) (h : α) (hnone : valFind vs m = none) :
    insertSegs (Trie.node vs cs pr dyn) [] m h =
      .ok (Trie.node (vs ++ [(m, h)]) cs pr dyn) := by
  rw [insertSegs, hnone]
  rfl

/-- One step of insert through an existing single literal child. -/
theorem insertSegs_lit_step {α : Type} (vs : List (Method × α)) (k : Str)
    (c c2 : Trie α) (pr : Str) (dyn : Option (Trie α)) (rest : List Str)
    (m : Method) (h : α)
    (hne : ¬ (k = [])) (hbr : isBrokenSegment k = false)
    (hdy : isDynamicSegment k = false)
    (hrec : insertSegs c rest m h = .ok c2) :
    insertSegs (Trie.node vs [(k, c)] pr dyn) (k :: rest) m h =
      .ok (Trie.node vs [(k, c2)] pr dyn) := by
  rw [insertSegs, if_neg hne, hbr]
  simp only [Bool.false_eq_true, if_false]
  rw [hdy]
  simp only [Bool.false_eq_true, if_false]
  have hcf : childFind [(k, c)] k = some c := by simp [childFind]
  rw [hcf]
  simp only [Option.getD_some]
  rw [hrec]
  simp [childSet]

/-- One step of insert through an existing dynamic child: note the stored
    parameter name pr is preserved. -/
theorem insertSegs_dyn_step {α : Type} (vs : List (Method × α))
    (cs : List (Str × Trie α)) (pr : Str) (d c2 : Trie α)
    (rest : List Str) (m : Method) (h : α) (seg : Str)
    (hne : ¬ (seg = [])) (hbr : isBrokenSegment seg = false)
    (hdy : isDynamicSegment seg = true)
    (hpn : ¬ (extract_param_name seg = []))
    (hrec : insertSegs d rest m h = .ok c2) :
    insertSegs (Trie.node vs cs pr (some d)) (seg :: rest) m h =
      .ok (Trie.node vs cs pr (some c2)) := by
  rw [insertSegs, if_neg hne, hbr]
  simp only [Bool.false_eq_true, if_false]
  rw [hdy]
  simp only [if_true]
  rw [if_neg hpn, hrec]

/-- Inserting a second route that reuses the dynamic position at the end of
    a shared literal prefix succeeds and keeps the first parameter name. -/
theorem insertSegs_spine_pre {α : Type} (x y : Str) (m1 m2 : Method)
    (h1 h2 : α) (hm : m1 ≠ m2) (hy : y ≠ []) :
    ∀ pre : List Str,
    (∀ s ∈ pre, s ≠ [] ∧ s.headD ' ' ≠ obrace ∧ s.getLastD ' ' ≠ cbrace) →
    insertSegs (spine (pre ++ [dynSeg x]) m1 h1) (pre ++ [dynSeg y]) m2 h2 =
      .ok (twoSpine pre x m1 m2 h1 h2) := by
  intro pre
  induction pre with
  | nil =>
    intro _
    have hs : spine [dynSeg x] m1 h1 =
        Trie.node [] [] x (some (Trie.node [(m1, h1)] [] [] none)) := by
      rw [spine, if_pos (dynSeg_dynamic x), dynSeg_param]
      rfl
    rw [List.nil_append, List.nil_append, hs]
    rw [insertSegs_dyn_step [] [] x _ (Trie.node [(m1, h1), (m2, h2)] [] [] none)
      [] m2 h2 (dynSeg y) (dynSeg_ne_nil y) (dynSeg_not_broken y)
      (dynSeg_dynamic y) (by rw [dynSeg_param]; exact hy) ?_]
    · rfl
    · rw [insertSegs_nil_step _ _ _ _ _ _ (by simp [valFind, hm])]
      rfl
  | cons s pre2 ih =>
    intro hpre
    obtain ⟨hne, hhead, hlast⟩ := hpre s (List.mem_cons_self _ _)
    have hd : isDynamicSegment s = false := lit_seg_not_dynamic s hhead
    have hb : isBrokenSegment s = false := lit_seg_not_broken s hhead hlast
    have hrest := fun t ht => hpre t (List.mem_cons_of_mem _ ht)
    have hspine : spine ((s :: pre2) ++ [dynSeg x]) m1 h1 =
        Trie.node [] [(s, spine (pre2 ++ [dynSeg x]) m1 h1)] [] none := by
      rw [List.cons_append, spine, if_neg (by rw [hd]; simp)]
    rw [hspine, List.cons_append]
    rw [insertSegs_lit_step [] s _ _ [] none _ m2 h2 hne hb hd (ih hrest)]
    rfl

/-- find through the two-route trie binds the first insertion's name. -/
theorem findSegs_twoSpine {α : Type} (x v : Str) (m1 m2 : Method)
    (h1 h2 : α) (hm : m1 ≠ m2) (hv : v ≠ []) :
    ∀ pre : List Str, (∀ s ∈ pre, s ≠ []) →
    findSegs (twoSpine pre x m1 m2 h1 h2) (pre ++ [v]) m2 [] =
      .ok (some (h2, [(x, v)])) := by
  intro pre
  induction pre with
  | nil =>
    intro _
    show findSegs
      (Trie.node [] [] x (some (Trie.node [(m1, h1), (m2, h2)] [] [] none)))
      [v] m2 [] = _
    rw [findSegs_dyn_node _ _ _ _ _ _ _ hv]
    have hemp : paramsEmplace [] x v = [(x, v)] := by simp [paramsEmplace]
    rw [hemp, findSegs_nil_node]
    simp [valFind, hm]
  | cons s pre2 ih =>
    intro hpre
    show findSegs (Trie.node [] [(s, twoSpine pre2 x m1 m2 h1 h2)] [] none)
      ((s :: pre2) ++ [v]) m2 [] = _
    rw [List.cons_append, findSegs_lit_node _ _ _ _ _ _ _ _
      (hpre s (List.mem_cons_self _ _))]
    exact ih (fun t ht => hpre t (List.mem_cons_of_mem _ ht))

/-- C8 counterexample: inserting GET /{x} then POST /{y} (different names at
    the same dynamic position) rejects neither insertion, but a lookup binds
    the parameter under the FIRST insertion's name x, not the most recent
    name y as the claim states. -/
theorem trie_param_recent_name_cex :
    ((insertTrie (emptyTrie : Trie Nat) .get (("/{x}").toList) 1).bind
      (fun t1 => (insertTrie t1 .post (("/{y}").toList) 2).bind
        (fun t2 => findTrie t2 .post (("/v").toList)))).toOption =
      some (some (2, [(("x").toList, ("v").toList)])) ∧
    paramsLookup [(("x").toList, ("v").toList)] (("y").toList) = none ∧
    paramsLookup [(("x").toList, ("v").toList)] (("x").toList) =
      some (("v").toList) := by
  refine ⟨by decide, by decide, by decide⟩

/-- C8 amended: when two route patterns share the same dynamic position and
    are inserted with different parameter names, neither insertion is
    rejected, and lookups through that position bind the parameter under
    the name given by the FIRST (earliest) insertion — the stored name is
    only written when the dynamic child is created. -/
theorem trie_param_first_name_wins {α : Type} (pre : List Str)
    (x y v : Str) (m1 m2 : Method) (h1 h2 : α) (hm : m1 ≠ m2)
    (hpre : ∀ s ∈ pre, s ≠ [] ∧ ('/' : Char) ∉ s ∧
      s.headD ' ' ≠ obrace ∧ s.getLastD ' ' ≠ cbrace)
    (hx : x ≠ [] ∧ ('/' : Char) ∉ x)
    (hy : y ≠ [] ∧ ('/' : Char) ∉ y)
    (hv : v ≠ [] ∧ ('/' : Char) ∉ v) :
    ∃ t1 t2,
      insertTrie (emptyTrie : Trie α) m1 (joinPath (pre ++ [dynSeg x])) h1 =
        .ok t1 ∧
      insertTrie t1 m2 (joinPath (pre ++ [dynSeg y])) h2 = .ok t2 ∧
      findTrie t2 m2 (joinPath (pre ++ [v])) = .ok (some (h2, [(x, v)])) := by
  have hprene : ∀ s ∈ pre, s ≠ [] ∧ ('/' : Char) ∉ s :=
    fun s hs => ⟨(hpre s hs).1, (hpre s hs).2.1⟩
  have hpathx : ∀ s ∈ pre ++ [dynSeg x], s ≠ [] ∧ ('/' : Char) ∉ s := by
    intro s hs
    rcases List.mem_append.mp hs with hin | hone
    · exact hprene s hin
    · rw [List.mem_singleton.mp hone]
      exact ⟨dynSeg_ne_nil x, dynSeg_no_slash x hx.2⟩
  have hpathy : ∀ s ∈ pre ++ [dynSeg y], s ≠ [] ∧ ('/' : Char) ∉ s := by
    intro s hs
    rcases List.mem_append.mp hs with hin | hone
    · exact hprene s hin
    · rw [List.mem_singleton.mp hone]
      exact ⟨dynSeg_ne_nil y, dynSeg_no_slash y hy.2⟩
  have hpathv : ∀ s ∈ pre ++ [v], s ≠ [] ∧ ('/' : Char) ∉ s := by
    intro s hs
    rcases List.mem_append.mp hs with hin | hone
    · exact hprene s hin
    · rw [List.mem_singleton.mp hone]
      exact hv
  refine ⟨spine (pre ++ [dynSeg x]) m1 h1, twoSpine pre x m1 m2 h1 h2,
    ?_, ?_, ?_⟩
  · unfold insertTrie
    rw [split_path_joinPath _ hpathx]
    apply insertSegs_empty
    intro s hs
    rcases List.mem_append.mp hs with hin | hone
    · obtain ⟨hne, _, hhead, hlast⟩ := hpre s hin
      exact ⟨hne, lit_seg_not_broken s hhead hlast,
        fun hc => absurd hc (by rw [lit_seg_not_dynamic s hhead]; simp)⟩
    · rw [List.mem_singleton.mp hone]
      exact ⟨dynSeg_ne_nil x, dynSeg_not_broken x,
        fun _ => by rw [dynSeg_param]; exact hx.1⟩
  · unfold insertTrie
    rw [split_path_joinPath _ hpathy]
    exact insertSegs_spine_pre x y m1 m2 h1 h2 hm hy.1 pre
      (fun s hs => ⟨(hpre s hs).1, (hpre s hs).2.2.1, (hpre s hs).2.2.2⟩)
  · unfold findTrie
    rw [split_path_joinPath _ hpathv]
    exact findSegs_twoSpine x v m1 m2 h1 h2 hm hv.1 pre
      (fun s hs => (hpre s hs).1)

/-- Witness for trie_param_first_name_wins with prefix /a, names x and y,
    request segment v. -/
theorem trie_param_first_name_wins_witness :
    ∃ t1 t2,
      insertTrie (emptyTrie : Trie Nat) .get
        (joinPath ([("a").toList] ++ [dynSeg (("x").toList)])) 1 = .ok t1 ∧
      insertTrie t1 .post
        (joinPath ([("a").toList] ++ [dynSeg (("y").toList)])) 2 = .ok t2 ∧
      findTrie t2 .post (joinPath ([("a").toList] ++ [("v").toList])) =
        .ok (some (2, [(("x").toList, ("v").toList)])) :=
  trie_param_first_name_wins [("a").toList] (("x").toList) (("y").toList)
    (("v").toList) .get .post 1 2 (by decide) (by decide) (by decide)
    (by decide) (by decide)

theorem owners_nil (p : Str) : owners [] p = 0 := rfl

theorem owners_cons (k : Nat) (f : FileObj) (rest : FileHeap) (p : Str) :
    owners ((k, f) :: rest) p = contrib f p + owners rest p := by
  simp [owners]

theorem owners_append (u w : FileHeap) (p : Str) :
    owners (u ++ w) p = owners u p + owners w p := by
  simp [owners]

theorem contrib_movedFrom (p : Str) : contrib movedFromObj p = 0 := rfl

theorem heapSet_balance (hp : FileHeap) (i : Nat) (f0 g : FileObj) (p : Str)
    (hfind : heapFind hp i = some f0) :
    owners (heapSet hp i g) p + contrib f0 p = owners hp p + contrib g p := by
  induction hp with
  | nil => cases hfind
  | cons e rest ih =>
    obtain ⟨k, f⟩ := e
    rw [heapFind] at hfind
    by_cases hk : k = i
    · rw [if_pos hk] at hfind
      injection hfind with hf
      subst hf
      simp only [heapSet, hk, if_true, owners_cons]
      omega
    · rw [if_neg hk] at hfind
      simp only [heapSet, hk, if_false, owners_cons]
      have hbal := ih hfind
      omega

theorem heapFind_set_ne (hp : FileHeap) (i j : Nat) (g : FileObj)
    (hne : j ≠ i) : heapFind (heapSet hp j g) i = heapFind hp i := by
  induction hp with
  | nil => rfl
  | cons e rest ih =>
    obtain ⟨k, f⟩ := e
    by_cases hk : k = j
    · subst hk
      simp only [heapSet, if_true]
      rw [heapFind, heapFind, if_neg hne, if_neg hne]
    · simp only [heapSet, hk, if_false]
      rw [heapFind, heapFind]
      by_cases hk2 : k = i
      · rw [if_pos hk2, if_pos hk2]
      · rw [if_neg hk2, if_neg hk2, ih]

theorem heapFind_set_self (hp : FileHeap) (i : Nat) (g : FileObj)
    (hsome : (heapFind hp i).isSome) :
    heapFind (heapSet hp i g) i = some g := by
  induction hp with
  | nil => simp [heapFind] at hsome
  | cons e rest ih =>
    obtain ⟨k, f⟩ := e
    rw [heapFind] at hsome
    by_cases hk : k = i
    · simp only [heapSet, hk, if_true]
      rw [heapFind, if_pos rfl]
    · rw [if_neg hk] at hsome
      simp only [heapSet, hk, if_false]
      rw [heapFind, if_neg hk]
      exact ih hsome

theorem heapFind_append_left (u w : FileHeap) (i : Nat) (f : FileObj)
    (h : heapFind u i = some f) : heapFind (u ++ w) i = some f := by
  induction u with
  | nil => cases h
  | cons e rest ih =>
    obtain ⟨k, g⟩ := e
    rw [heapFind] at h
    rw [List.cons_append, heapFind]
    by_cases hk : k = i
    · rw [if_pos hk] at h ⊢
      exact h
    · rw [if_neg hk] at h ⊢
      exact ih h

theorem heapErase_balance (hp : FileHeap) (i : Nat) (f0 : FileObj) (p : Str)
    (hfind : heapFind hp i = some f0) :
    owners (heapErase hp i) p + contrib f0 p = owners hp p := by
  induction hp with
  | nil => cases hfind
  | cons e rest ih =>
    obtain ⟨k, f⟩ := e
    rw [heapFind] at hfind
    by_cases hk : k = i
    · rw [if_pos hk] at hfind
      injection hfind with hf
      subst hf
      simp only [heapErase, hk, if_true, owners_cons]
      omega
    · rw [if_neg hk] at hfind
      simp only [heapErase, hk, if_false, owners_cons]
      have hbal := ih hfind
      omega

theorem count_option_toList (o : Option Str) (p : Str) :
    (o.toList).count p = if o = some p then 1 else 0 := by
  cases o with
  | none => simp
  | some q =>
    simp only [Option.toList, List.count_cons, List.count_nil,
      Option.some.injEq]
    by_cases hq : q = p
    · simp [hq]
    · simp [hq, Ne.symm hq]

/-- One operation removes at most what it can and preserves the ownership
    balance; only a disk-backed construction for path p can raise the
    total. -/
theorem fstep_bound (hp : FileHeap) (op : FOp) (hpm : FileHeap)
    (evm : List Str) (h : fstep hp op = some (hpm, evm)) (p : Str) :
    evm.count p + owners hpm p ≤ owners hp p + opCreate op p := by
  cases op with
  | mkMem i =>
    rw [fstep] at h
    split at h
    · cases h
    · simp only [Option.some.injEq, Prod.mk.injEq] at h
      obtain ⟨rfl, rfl⟩ := h.symm
      rw [owners_append, owners_cons]
      have hc : contrib { inMemory := true, tempPath := [] } p = 0 := rfl
      rw [hc, owners_nil]
      simp [opCreate]
  | mkDisk i q =>
    rw [fstep] at h
    split at h
    · cases h
    · simp only [Option.some.injEq, Prod.mk.injEq] at h
      obtain ⟨rfl, rfl⟩ := h.symm
      rw [owners_append, owners_cons]
      have hc : contrib { inMemory := false, tempPath := q } p ≤
          if q = p then 1 else 0 := by
        unfold contrib destructorRemoves
        by_cases hq : q = p <;> by_cases hqe : q = [] <;>
          simp [hq, hqe] <;> split <;> simp_all
      have hoc : opCreate (FOp.mkDisk i q) p = if q = p then 1 else 0 := rfl
      rw [owners_nil, hoc]
      simp only [List.count_nil]
      omega
  | moveCtor dst src =>
    rw [fstep] at h
    split at h
    · cases h
    · cases hf : heapFind hp src with
      | none => rw [hf] at h; cases h
      | some f =>
        rw [hf] at h
        simp only [Option.some.injEq, Prod.mk.injEq] at h
        obtain ⟨rfl, rfl⟩ := h.symm
        rw [owners_append, owners_cons]
        have hbal := heapSet_balance hp src f movedFromObj p hf
        rw [contrib_movedFrom] at hbal
        rw [owners_nil]
        simp only [List.count_nil, opCreate]
        omega
  | moveAssign dst src =>
    rw [fstep] at h
    by_cases hds : dst = src
    · rw [if_pos hds] at h
      split at h
      · simp only [Option.some.injEq, Prod.mk.injEq] at h
        obtain ⟨rfl, rfl⟩ := h.symm
        simp [opCreate]
      · cases h
    · rw [if_neg hds] at h
      cases hfd : heapFind hp dst with
      | none => rw [hfd] at h; cases h
      | some fd =>
        cases hfs : heapFind hp src with
        | none => rw [hfd, hfs] at h; cases h
        | some fs =>
          rw [hfd, hfs] at h
          simp only [Option.some.injEq, Prod.mk.injEq] at h
          obtain ⟨rfl, rfl⟩ := h.symm
          have hfs2 : heapFind (heapSet hp dst fs) src = some fs := by
            rw [heapFind_set_ne _ _ _ _ hds, hfs]
          have hbal1 := heapSet_balance (heapSet hp dst fs) src fs
            movedFromObj p hfs2
          have hbal2 := heapSet_balance hp dst fd fs p hfd
          rw [contrib_movedFrom] at hbal1
          rw [count_option_toList]
          have hcd : (if destructorRemoves fd = some p then 1 else 0) =
              contrib fd p := rfl
          have hoc : opCreate (FOp.moveAssign dst src) p = 0 := rfl
          rw [hcd, hoc]
          omega
  | destroy i =>
    rw [fstep] at h
    cases hf : heapFind hp i with
    | none => rw [hf] at h; cases h
    | some f =>
      rw [hf] at h
      simp only [Option.some.injEq, Prod.mk.injEq] at h
      obtain ⟨rfl, rfl⟩ := h.symm
      have hbal := heapErase_balance hp i f p hf
      rw [count_option_toList]
      have hcd : (if destructorRemoves f = some p then 1 else 0) =
          contrib f p := rfl
      have hoc : opCreate (FOp.destroy i) p = 0 := rfl
      rw [hcd, hoc]
      omega

theorem count_le_one_of_nodup (l : List Str) (hl : l.Nodup) (p : Str) :
    l.count p ≤ 1 := by
  induction l with
  | nil => simp
  | cons a rest ih =>
    obtain ⟨hnotmem, hrest⟩ := List.nodup_cons.mp hl
    rw [List.count_cons]
    by_cases hp : p = a
    · subst hp
      rw [List.count_eq_zero_of_not_mem hnotmem]
      simp
    · have hb : (a == p) = false := beq_eq_false_iff_ne.mpr (Ne.symm hp)
      rw [hb]
      simp only [Bool.false_eq_true, if_false]
      have hone := ih hrest
      omega

/-- Along any valid trace, removals plus live owners of p are bounded by
    the prior total plus the number of disk constructions for p. -/
theorem frun_bound (ops : List FOp) : ∀ hp evs hp2 evs2,
    frun hp evs ops = some (hp2, evs2) →
    ∀ p, evs2.count p + owners hp2 p ≤
      evs.count p + owners hp p + (diskPaths ops).count p := by
  induction ops with
  | nil =>
    intro hp evs hp2 evs2 h p
    rw [frun] at h
    simp only [Option.some.injEq, Prod.mk.injEq] at h
    obtain ⟨rfl, rfl⟩ := h.symm
    simp
  | cons op rest ih =>
    intro hp evs hp2 evs2 h p
    rw [frun] at h
    cases hstep : fstep hp op with
    | none => rw [hstep] at h; cases h
    | some pr =>
      rw [hstep] at h
      obtain ⟨hpm, evm⟩ := pr
      dsimp only at h
      have hih := ih _ _ _ _ h p
      have hsb := fstep_bound hp op hpm evm hstep p
      rw [List.count_append] at hih
      have hdp : (diskPaths (op :: rest)).count p =
          opCreate op p + (diskPaths rest).count p := by
        cases op with
        | mkDisk i q =>
          show (q :: diskPaths rest).count p = _
          rw [List.count_cons]
          unfold opCreate
          by_cases hq : q = p
          · subst hq
            simp [Nat.add_comm]
          · have hb : (q == p) = false := beq_eq_false_iff_ne.mpr hq
            rw [hb]
            simp [hq]
        | mkMem i => simp [diskPaths, opCreate]
        | moveCtor a b => simp [diskPaths, opCreate]
        | moveAssign a b => simp [diskPaths, opCreate]
        | destroy i => simp [diskPaths, opCreate]
      rw [hdp]
      omega

/-- C10: temp-file ownership is transferred exactly once by move. After a
    move construction or move assignment the moved-from file_t is marked
    in-memory with an empty temp path, so its destructor removes no file,
    and along every valid trace whose disk constructions use distinct
    paths, each temp path is removed at most once — by the destructor or
    move-assignment overwrite of its final owner. -/
theorem file_move_ownership (ops : List FOp) (hp : FileHeap)
    (evs : List Str) (hrun : frun [] [] ops = some (hp, evs))
    (hnodup : (diskPaths ops).Nodup) :
    (∀ p, evs.count p + owners hp p ≤ 1) ∧
    (∀ hp0 dst src hp2 evs2,
      fstep hp0 (FOp.moveCtor dst src) = some (hp2, evs2) →
      heapFind hp2 src = some movedFromObj ∧ evs2 = []) ∧
    (∀ hp0 dst src hp2 evs2, dst ≠ src →
      fstep hp0 (FOp.moveAssign dst src) = some (hp2, evs2) →
      heapFind hp2 src = some movedFromObj) ∧
    destructorRemoves movedFromObj = none := by
  refine ⟨?_, ?_, ?_, rfl⟩
  · intro p
    have hb := frun_bound ops [] [] hp evs hrun p
    have hcount := count_le_one_of_nodup (diskPaths ops) hnodup p
    rw [owners_nil] at hb
    simp only [List.count_nil] at hb
    omega
  · intro hp0 dst src hp2 evs2 h
    rw [fstep] at h
    split at h
    · cases h
    · cases hf : heapFind hp0 src with
      | none => rw [hf] at h; cases h
      | some f =>
        rw [hf] at h
        simp only [Option.some.injEq, Prod.mk.injEq] at h
        obtain ⟨rfl, rfl⟩ := h.symm
        refine ⟨?_, rfl⟩
        apply heapFind_append_left
        · have hsome : (heapFind hp0 src).isSome := by rw [hf]; rfl
          exact heapFind_set_self hp0 src movedFromObj hsome
  · intro hp0 dst src hp2 evs2 hds h
    rw [fstep, if_neg hds] at h
    cases hfd : heapFind hp0 dst with
    | none => rw [hfd] at h; cases h
    | some fd =>
      cases hfs : heapFind hp0 src with
      | none => rw [hfd, hfs] at h; cases h
      | some fs =>
        rw [hfd, hfs] at h
        simp only [Option.some.injEq, Prod.mk.injEq] at h
        obtain ⟨rfl, rfl⟩ := h.symm
        have hfs2 : (heapFind (heapSet hp0 dst fs) src).isSome := by
          rw [heapFind_set_ne _ _ _ _ hds, hfs]
          rfl
        exact heapFind_set_self _ _ _ hfs2

/-- Witness for file_move_ownership: construct a disk file, move it, then
    destroy both objects — the temp path is removed exactly once. -/
theorem file_move_ownership_witness :
    (["t".toList] : List Str).count ("t".toList) + owners [] ("t".toList) ≤ 1 :=
  (file_move_ownership
    [FOp.mkDisk 0 ("t".toList), FOp.moveCtor 1 0, FOp.destroy 0,
      FOp.destroy 1]
    [] [("t".toList)] (by decide) (by decide)).1 ("t".toList)

end Cxxapi
